import Mathlib

/-!
Verification of the dependency-aware minimum-resource task scheduler
(`examples/complex_scheduling_solution.py` and
`examples/professional_solution_example.py`).

The embedding is shallow: Python dicts become insertion-ordered association
lists (`List (Int × β)` with overwrite-in-place assignment), `defaultdict`
lookups default to `[]`/`0`, and the `heapq` priority queues are modelled by
sorted lists, which is extensionally faithful because the only operations the
source performs on them are push, pop-min, peek-min and replace-min (the
linear scans over `worker_availability` break at the first qualifying slot,
and by the heap invariant slot 0 holds the lexicographic minimum, whose first
component is the minimum end time, so the scan reduces to a test on the
minimum).  Python ints are `Int`; the `float('inf')` sentinel that can reach
`actual_start` is modelled by a dedicated constructor of `StartVal`.
-/

namespace Sched

/-- Lookup in an insertion-ordered association list (Python `dict` access). -/
def alookup {β : Type} : List (Int × β) → Int → Option β
  | [], _ => none
  | (k', v) :: rest, k => if k' = k then some v else alookup rest k

/-- `d[k] = v` on a Python dict: overwrite in place, else append (insertion
order preserved, as CPython dicts do). -/
def aset {β : Type} : List (Int × β) → Int → β → List (Int × β)
  | [], k, v => [(k, v)]
  | (k', v') :: rest, k, v =>
    if k' = k then (k, v) :: rest else (k', v') :: aset rest k v

/-- `defaultdict(list)` read. -/
def getList {β : Type} (l : List (Int × List β)) (k : Int) : List β :=
  (alookup l k).getD []

/-- `d[k].append x` on a `defaultdict(list)`. -/
def dappend {β : Type} (l : List (Int × List β)) (k : Int) (x : β) :
    List (Int × List β) :=
  aset l k (getList l k ++ [x])

/-- Lexicographic order on `(key, id)` pairs, the order `heapq` uses on the
tuples the source pushes. -/
def pairLe (a b : Int × Int) : Bool :=
  decide (a.1 < b.1) || (decide (a.1 = b.1) && decide (a.2 ≤ b.2))

/-- Sorted insertion: the model of `heapq.heappush` (the heap is observed only
through its minimum). -/
def qinsert (x : Int × Int) : List (Int × Int) → List (Int × Int)
  | [] => [x]
  | y :: rest => if pairLe x y then x :: y :: rest else y :: qinsert x rest

/-- The inner loop body of Kahn's algorithm shared by both implementations:
for each task that depends on the popped task, decrement its in-degree and,
when it reaches zero, push `(start, id)` onto the ready queue. -/
def processDependents (key : Int → Int) :
    List Int → List (Int × Int) → List (Int × Int) →
    List (Int × Int) × List (Int × Int)
  | [], queue, deg => (queue, deg)
  | d :: ds, queue, deg =>
    let nd := (alookup deg d).getD 0 - 1
    let deg' := aset deg d nd
    let queue' := if nd = 0 then qinsert (key d, d) queue else queue
    processDependents key ds queue' deg'

/-- Weight of an in-degree map, used to bound the number of loop iterations:
every iteration pops one queue element and each push consumes one unit of
positive in-degree, so `queue.length + degWeight deg` strictly decreases. -/
def degWeight (deg : List (Int × Int)) : Nat :=
  deg.foldl (fun n p => n + p.2.toNat) 0

/-- Fuel that always suffices for `kahnLoop` to drain its queue. -/
def kahnFuel (queue : List (Int × Int)) (deg : List (Int × Int)) : Nat :=
  queue.length + degWeight deg

/-- The `while ready_queue:` loop of Kahn's algorithm.  `graph` maps a task id
to the ids that depend on it; `key` gives the priority (the task's declared
start time).  The fuel argument only makes the recursion structural: called
with `kahnFuel` it computes exactly what the Python loop does. -/
def kahnLoop (graph : List (Int × List Int)) (key : Int → Int) :
    Nat → List (Int × Int) → List (Int × Int) → List Int → List Int
  | 0, _, _, emitted => emitted
  | _ + 1, [], _, emitted => emitted
  | fuel + 1, (_, cur) :: rest, deg, emitted =>
    let s := processDependents key (getList graph cur) rest deg
    kahnLoop graph key fuel s.1 s.2 (emitted ++ [cur])

/-- Seeding of the ready queue: all ids of in-degree 0, pushed in the map's
insertion order (`for task_id, degree in in_degree.items(): ...`). -/
def seedQueue (deg : List (Int × Int)) (key : Int → Int) : List (Int × Int) :=
  deg.foldl (fun q p => if p.2 = 0 then qinsert (key p.1, p.1) q else q) []

/-! ### `complex_scheduling_solution.py` -/

/-- Value of the mutable `actual_start` attribute: `None` at construction, and
after allocation either a finite int or the `float('inf')` that
`max(task.start_time, earliest_available_time)` produces when no existing
worker qualified (the sentinel is never overwritten in that branch). -/
inductive StartVal : Type
  | unset : StartVal
  | infty : StartVal
  | fin : Int → StartVal
deriving DecidableEq

/-- The `Task` class.  `duration` is set once in `__init__` from
`end_time - start_time` and never changed, so it is modelled as a derived
function below rather than a field. -/
structure Task where
  id : Int
  start_time : Int
  end_time : Int
  dependencies : List Int
  assigned_worker : Option Int := none
  actual_start : StartVal := .unset
deriving DecidableEq

def Task.duration (t : Task) : Int := t.end_time - t.start_time

/-- The mutable attributes of an `AdvancedTaskScheduler` instance. -/
structure CState where
  tasks : List (Int × Task)
  depGraph : List (Int × List Int)
  revDeps : List (Int × List Int)
deriving DecidableEq

def freshCState : CState := ⟨[], [], []⟩

/-- `AdvancedTaskScheduler.add_task`. -/
def add_task (st : CState) (t : Task) : CState :=
  { tasks := aset st.tasks t.id t
    depGraph := t.dependencies.foldl (fun g d => dappend g d t.id) st.depGraph
    revDeps := t.dependencies.foldl (fun g d => dappend g t.id d) st.revDeps }

/-- The `for task in tasks: self.add_task(task)` prologue of
`find_minimum_workers`. -/
def addAll (st : CState) (ts : List Task) : CState := ts.foldl add_task st

/-- `self.tasks[i].start_time`; total with an unreachable default (every id
that ever enters the ready queue is a key of `self.tasks`). -/
def cKey (st : CState) (i : Int) : Int :=
  ((alookup st.tasks i).map Task.start_time).getD 0

/-- `AdvancedTaskScheduler._get_topologically_sorted_tasks`:
in-degrees from `reverse_deps`, ready queue seeded with the in-degree-0 tasks
keyed by `start_time`, then Kahn's loop.  Note there is no length check here:
on cyclic input the unresolved tasks are silently missing from the result. -/
def get_topologically_sorted_tasks (st : CState) : List Int :=
  let deg := st.tasks.foldl
    (fun m p => aset m p.1 ((getList st.revDeps p.1).length : Int)) []
  let q0 := seedQueue deg (cKey st)
  kahnLoop st.depGraph (cKey st) (kahnFuel q0 deg) q0 deg []

/-- Entries of `critical_info`. -/
structure CritInfo where
  earliest_start : Int
  earliest_finish : Int
  latest_start : Int
  latest_finish : Int
  slack : Int
deriving DecidableEq

/-- One iteration of the forward pass of `_calculate_critical_path`: compute
`earliest_start` from the declared start and the already-computed
dependencies (the `if dep_id in critical_info` guard skips the others), then
store the entry under the task's key in `self.tasks`. -/
def cpStep (info : List (Int × CritInfo)) (p : Int × Task) : List (Int × CritInfo) :=
  let t := p.2
  let es := t.dependencies.foldl (fun es d =>
    match alookup info d with
    | some i => max es i.earliest_finish
    | none => es) t.start_time
  aset info p.1
    { earliest_start := es, earliest_finish := es + t.duration
      latest_start := t.start_time, latest_finish := t.end_time
      slack := 0 }

/-- The backward pass of `_calculate_critical_path` (simplified in the
source): only `slack = latest_start - earliest_start` is written. -/
def slackUpd (c : CritInfo) : CritInfo :=
  { c with slack := c.latest_start - c.earliest_start }

/-- `AdvancedTaskScheduler._calculate_critical_path`: iterates `self.tasks`
in insertion order (not topological order); a dependency whose entry is not
yet in `critical_info` is skipped by the `if dep_id in critical_info` guard.
The backward pass only writes `slack = latest_start - earliest_start`. -/
def calculate_critical_path (st : CState) : List (Int × CritInfo) :=
  (st.tasks.foldl cpStep []).map (fun p => (p.1, slackUpd p.2))

/-- Local state of `_allocate_resources_optimally`: the
`worker_availability` heap (sorted `(end_time, worker_id)` pairs), the
`worker_assignments` dict (worker id → task ids in assignment order),
`worker_count`, and the task objects, which the loop mutates in place. -/
structure AllocState where
  avail : List (Int × Int)
  assignments : List (Int × List Int)
  workerCount : Int
  tasks : List (Int × Task)
deriving DecidableEq

/-- The `available_worker is None` branch: allocate a new worker; note
`earliest_available_time` is still `float('inf')`, so
`actual_start = max(start_time, inf) = inf`. -/
def newWorker (st : AllocState) (t : Task) (tid : Int) : AllocState :=
  let w := st.workerCount + 1
  let t' := { t with assigned_worker := some w, actual_start := .infty }
  { avail := qinsert (t.end_time, w) st.avail
    assignments := dappend st.assignments w tid
    workerCount := w
    tasks := aset st.tasks tid t' }

/-- One iteration of the allocation loop.  The scan over
`worker_availability` breaks at the first slot whose `end_time ≤ start_time`;
slot 0 of the heap is the lexicographic minimum, whose first component is the
minimal end time, so either slot 0 qualifies (and is taken, with
`earliest_available_time` = its end time) or no slot does. -/
def allocStep (st : AllocState) (tid : Int) : AllocState :=
  match alookup st.tasks tid with
  | none => st
  | some t =>
    match st.avail with
    | (e, w) :: rest =>
      if e ≤ t.start_time then
        let t' := { t with assigned_worker := some w
                           actual_start := .fin (max t.start_time e) }
        { avail := qinsert (t.end_time, w) rest
          assignments := dappend st.assignments w tid
          workerCount := st.workerCount
          tasks := aset st.tasks tid t' }
      else newWorker st t tid
    | [] => newWorker st t tid

/-- `AdvancedTaskScheduler._allocate_resources_optimally`. -/
def allocate_resources_optimally (st : CState) (sorted_tasks : List Int) :
    AllocState :=
  sorted_tasks.foldl allocStep ⟨[], [], 0, st.tasks⟩

/-- The returned `worker_assignments` dict holds the (mutated) `Task`
objects themselves; materialise them from the final task store. -/
def materialize (tasks : List (Int × Task)) (assignments : List (Int × List Int)) :
    List (Int × List Task) :=
  assignments.map (fun p => (p.1, p.2.filterMap (alookup tasks)))

/-- `AdvancedTaskScheduler.find_minimum_workers`.  Returns the
`(min_workers, worker_assignments)` pair together with the instance state
after the call — the task records in it are the caller's `Task` objects,
which the allocator mutates in place. -/
def find_minimum_workers (st : CState) (ts : List Task) :
    (Int × List (Int × List Task)) × CState :=
  let st1 := addAll st ts
  let sorted := get_topologically_sorted_tasks st1
  -- `critical_path_info` is computed but never consumed by the allocator
  let _info := calculate_critical_path st1
  let a := allocate_resources_optimally st1 sorted
  ((a.workerCount, materialize a.tasks a.assignments), { st1 with tasks := a.tasks })

/-! ### `professional_solution_example.py`

The task dicts are modelled by a typed record; the dynamic-typing failure
modes of `validate_task_input` (non-dict entries, missing keys, non-int
fields) are not representable in the typed embedding.  Error messages are the
source's, minus the quote characters around field names. -/

structure PTask where
  id : Int
  start : Int
  end_ : Int
  dependencies : List Int
  assigned_worker : Option Int := none
deriving DecidableEq

/-- The value-level checks of `validate_task_input` on each task, with the
running index `i` of the enumeration. -/
def validateEach : List PTask → Nat → Except String Unit
  | [], _ => .ok ()
  | t :: rest, i =>
    if t.id < 0 then
      .error ("Task " ++ toString i ++ ": id must be a non-negative integer")
    else if t.start < 0 then
      .error ("Task " ++ toString i ++ ": start must be a non-negative integer")
    else if t.end_ ≤ t.start then
      .error ("Task " ++ toString i ++ ": end must be greater than start")
    else validateEach rest (i + 1)

/-- `validate_task_input`: empty-list check, then the per-task checks.
There is no duplicate-id check and no check that a dependency refers to an
existing id. -/
def validate_task_input (tasks : List PTask) : Except String Unit :=
  if tasks.length = 0 then .error "Task list cannot be empty"
  else validateEach tasks 0

/-- The result dict.  The single-task edge case omits the `task_order` key,
hence the `Option`. -/
structure PResult where
  min_workers : Int
  schedule : List (Int × List PTask)
  total_time : Int
  task_order : Option (List Int) := none
deriving DecidableEq

/-- `max(task['end'] for task in tasks)`; the empty case (where Python would
raise) is unreachable behind `validate_task_input`. -/
def maxEnd : List PTask → Int
  | [] => 0
  | t :: rest => rest.foldl (fun m x => max m x.end_) t.end_

/-- Stable insertion of `x` into an already-sorted (by `start`) list, after
all entries whose `start` is ≤ `x.start`. -/
def insByStart (x : PTask) : List PTask → List PTask
  | [] => [x]
  | y :: rest =>
    if y.start ≤ x.start then y :: insByStart x rest else x :: y :: rest

/-- Model of Python's stable `sorted(tasks, key=lambda t: t['start'])`. -/
def pySortedByStart (ts : List PTask) : List PTask :=
  ts.foldl (fun acc t => insByStart t acc) []

/-- One iteration of the `schedule_without_dependencies` loop: scan the
`workers` end-time list for the first index whose worker is free, else append
a new worker.  State: (workers, worker_assignments, worker_count). -/
def swdStep (st : List Int × List (Int × List PTask) × Int) (t : PTask) :
    List Int × List (Int × List PTask) × Int :=
  let (workers, assignments, count) := st
  match workers.findIdx? (fun e => e ≤ t.start) with
  | some i =>
    (workers.set i t.end_, dappend assignments ((i : Int) + 1) t, count)
  | none =>
    (workers ++ [t.end_], aset assignments (count + 1) [t], count + 1)

/-- `schedule_without_dependencies`. -/
def schedule_without_dependencies (tasks : List PTask) : PResult :=
  let s := (pySortedByStart tasks).foldl swdStep ([], [], 0)
  { min_workers := (s.1.length : Int), schedule := s.2.1, total_time := maxEnd tasks }

/-- `handle_edge_cases`: single task, or no dependencies at all. -/
def handle_edge_cases (tasks : List PTask) : Option PResult :=
  match tasks with
  | [t] =>
    some { min_workers := 1, schedule := [(1, [t])], total_time := t.end_ - t.start }
  | _ =>
    if tasks.all (fun t => t.dependencies.length = 0) then
      some (schedule_without_dependencies tasks)
    else none

/-- Allocation state of `schedule_tasks_optimally`: availability heap,
assignments (task ids), worker count, and the task dicts (mutated in place
via `task['assigned_worker'] = worker_id`). -/
def pAllocStep (st : List (Int × Int) × List (Int × List Int) × Int × List (Int × PTask))
    (tid : Int) :
    List (Int × Int) × List (Int × List Int) × Int × List (Int × PTask) :=
  let (avail, assignments, count, store) := st
  match alookup store tid with
  | none => st
  | some t =>
    match avail with
    | (e, w) :: rest =>
      if e ≤ t.start then
        (qinsert (t.end_, w) rest, dappend assignments w tid, count,
         aset store tid { t with assigned_worker := some w })
      else
        (qinsert (t.end_, count + 1) avail, dappend assignments (count + 1) tid,
         count + 1, aset store tid { t with assigned_worker := some (count + 1) })
    | [] =>
      (qinsert (t.end_, count + 1) avail, dappend assignments (count + 1) tid,
       count + 1, aset store tid { t with assigned_worker := some (count + 1) })

/-- `schedule_tasks_optimally`: graph construction, Kahn's loop with the
start-time priority queue, the circular-dependency length check, then greedy
allocation.  Besides the result it returns the final task store, whose
records are the caller's task dicts after the in-place mutations. -/
def schedule_tasks_optimally (tasks : List PTask) :
    Except String (PResult × List (Int × PTask)) :=
  let task_map := tasks.foldl (fun m t => aset m t.id t) []
  let degInit := tasks.foldl (fun m t => aset m t.id ((t.dependencies).length : Int)) []
  let graph := tasks.foldl
    (fun g t => t.dependencies.foldl (fun g d => dappend g d t.id) g) []
  let key := fun i => ((alookup task_map i).map PTask.start).getD 0
  let q0 := seedQueue degInit key
  let sorted := kahnLoop graph key (kahnFuel q0 degInit) q0 degInit []
  if sorted.length ≠ tasks.length then
    .error "Circular dependencies detected in task graph"
  else
    let a := sorted.foldl pAllocStep ([], [], 0, task_map)
    .ok ({ min_workers := a.2.2.1
           schedule := (a.2.1).map (fun p => (p.1, p.2.filterMap (alookup a.2.2.2)))
           total_time := maxEnd tasks
           task_order := some sorted }, a.2.2.2)

/-- `solve_task_scheduling_problem` before its `except` clauses: validation,
edge cases, then the main algorithm, with the raised `ValueError` messages
kept in the `Except` error channel. -/
def solveE (tasks : List PTask) : Except String PResult :=
  match validate_task_input tasks with
  | .error e => .error e
  | .ok _ =>
    match handle_edge_cases tasks with
    | some r => .ok r
    | none =>
      match schedule_tasks_optimally tasks with
      | .error e => .error e
      | .ok (r, _) => .ok r

/-- `solve_task_scheduling_problem`: every raised error is caught and turned
into `None`. -/
def solve_task_scheduling_problem (tasks : List PTask) : Option PResult :=
  (solveE tasks).toOption

instance exceptDecEq {ε α : Type} [DecidableEq ε] [DecidableEq α] :
    DecidableEq (Except ε α) := fun a b =>
  match a, b with
  | .error e, .error f =>
    if h : e = f then .isTrue (by rw [h])
    else .isFalse (fun hc => h (by injection hc))
  | .ok x, .ok y =>
    if h : x = y then .isTrue (by rw [h])
    else .isFalse (fun hc => h (by injection hc))
  | .error _, .ok _ => .isFalse (fun hc => Except.noConfusion hc)
  | .ok _, .error _ => .isFalse (fun hc => Except.noConfusion hc)

/-! ### Specification-side definitions -/

def taskIds (ts : List Task) : List Int := ts.map Task.id

/-- Structural well-formedness of a task set, per §3/§4.1 of the spec:
unique ids, dependency *sets* (no duplicates) referring to existing ids, and
positive durations. -/
def WellFormed (ts : List Task) : Prop :=
  (taskIds ts).Nodup ∧
  (∀ t ∈ ts, t.dependencies.Nodup) ∧
  (∀ t ∈ ts, ∀ d ∈ t.dependencies, d ∈ taskIds ts) ∧
  (∀ t ∈ ts, t.start_time < t.end_time)

instance (ts : List Task) : Decidable (WellFormed ts) := by
  unfold WellFormed; infer_instance

/-- `ord` is a topological order of the dependency DAG of `ts` covering all
tasks: a duplicate-free enumeration of exactly the task ids in which every
task appears after all of its dependencies. -/
def IsTopoOrderOf (ts : List Task) (ord : List Int) : Prop :=
  ord.Nodup ∧ (∀ i ∈ ord, i ∈ taskIds ts) ∧ (∀ i ∈ taskIds ts, i ∈ ord) ∧
  ∀ k : Fin ord.length, ∀ t ∈ ts, t.id = ord.get k →
    ∀ d ∈ t.dependencies, d ∈ ord.take k.1

instance (ts : List Task) (ord : List Int) : Decidable (IsTopoOrderOf ts ord) := by
  unfold IsTopoOrderOf; infer_instance

/-- The dependency graph is acyclic iff some topological enumeration exists
(the spec's §3 invariant). -/
def Acyclic (ts : List Task) : Prop := ∃ ord, IsTopoOrderOf ts ord

/-- Spec §4.3, written from the spec's words for comparison with the code:
for each task in the given (topological) order,
`earliestStart = max(windowStart, max(earliestFinish of each dependency))`
and `earliestFinish = earliestStart + duration`; the map sends each id to its
`(earliestStart, earliestFinish)` pair. -/
def specEarliestTimes (ts : List Task) (ord : List Int) : List (Int × (Int × Int)) :=
  ord.foldl (fun acc i =>
    match ts.find? (fun t => t.id = i) with
    | none => acc
    | some t =>
      let es := t.dependencies.foldl (fun es d =>
        match alookup acc d with
        | some p => max es p.2
        | none => es) t.start_time
      aset acc i (es, es + t.duration)) []

/-- Every task's dependencies precede it in the list itself (the hypothesis
under which the insertion-order critical-path pass happens to see every
dependency already computed). -/
def depsPrecede (ts : List Task) : Prop :=
  ∀ k : Fin ts.length, ∀ d ∈ (ts.get k).dependencies, d ∈ taskIds (ts.take k.1)

instance (ts : List Task) : Decidable (depsPrecede ts) := by
  unfold depsPrecede; infer_instance

/-- The `earliest_finish` recorded for `d`, defaulting to 0 (only used when
the entry exists). -/
def efOf (info : List (Int × CritInfo)) (d : Int) : Int :=
  ((alookup info d).map CritInfo.earliest_finish).getD 0

/-- Invariant of the critical-path forward pass over the processed prefix
`done`: each processed task has an entry satisfying the spec §4.3
characterisation of `earliestStart` as the maximum of the declared window
start and its dependencies' `earliestFinish`. -/
def CPInv (done : List Task) (info : List (Int × CritInfo)) : Prop :=
  info.map Prod.fst = taskIds done ∧
  ∀ t ∈ done, ∃ i, alookup info t.id = some i ∧
    i.earliest_finish = i.earliest_start + t.duration ∧
    t.start_time ≤ i.earliest_start ∧
    (∀ d ∈ t.dependencies, ∃ j, alookup info d = some j ∧
      j.earliest_finish ≤ i.earliest_start) ∧
    (i.earliest_start = t.start_time ∨ ∃ d ∈ t.dependencies, ∃ j,
      alookup info d = some j ∧ i.earliest_start = j.earliest_finish)

/-- The dependencies of the task with id `i` (empty for unknown ids). -/
def depsOfTask (ts : List Task) (i : Int) : List Int :=
  ((alookup (ts.map (fun t => (t.id, t))) i).map Task.dependencies).getD []

/-- Number of dependencies of `i` not yet emitted — the quantity
`in_degree[i]` tracks during Kahn's loop. -/
def remCount (depsOf : Int → List Int) (emitted : List Int) (i : Int) : Nat :=
  ((depsOf i).filter (fun d => !(decide (d ∈ emitted)))).length

/-- Every element's dependencies appear strictly earlier in the list. -/
def TopoPrefix (depsOf : Int → List Int) (l : List Int) : Prop :=
  ∀ k : Fin l.length, ∀ d ∈ depsOf (l.get k), d ∈ l.take k.1

/-- Invariant of Kahn's loop, abstract over the graph data: `ids` are the
task ids (duplicate-free), `depsOf` the dependency lists, `key` the priority
function. -/
structure KInv (ids : List Int) (depsOf : Int → List Int) (key : Int → Int)
    (emitted : List Int) (queue : List (Int × Int)) (deg : List (Int × Int)) :
    Prop where
  em_nodup : emitted.Nodup
  em_sub : ∀ i ∈ emitted, i ∈ ids
  em_done : ∀ i ∈ emitted, remCount depsOf emitted i = 0
  q_mem : ∀ p ∈ queue, p.2 ∈ ids ∧ p.1 = key p.2 ∧ p.2 ∉ emitted
  q_nodup : (queue.map Prod.snd).Nodup
  q_ready : ∀ p ∈ queue, remCount depsOf emitted p.2 = 0
  deg_val : ∀ i ∈ ids, alookup deg i = some ((remCount depsOf emitted i : Int))
  ready_q : ∀ i ∈ ids, i ∉ emitted → remCount depsOf emitted i = 0 →
    i ∈ queue.map Prod.snd

/-- Invariant of the inner loop over the popped task's dependents (`P` is
the processed prefix of the dependents list). -/
structure PDInv (ids : List Int) (depsOf : Int → List Int) (key : Int → Int)
    (emitted : List Int) (rest : List (Int × Int))
    (P : List Int) (q : List (Int × Int)) (deg : List (Int × Int)) : Prop where
  deg_val : ∀ i ∈ ids, alookup deg i =
    some ((remCount depsOf emitted i : Int) - (if i ∈ P then 1 else 0))
  q_sup : ∀ p ∈ rest, p ∈ q
  q_from : ∀ p ∈ q, p ∈ rest ∨
    (p.2 ∈ P ∧ p.1 = key p.2 ∧ remCount depsOf emitted p.2 = 1)
  q_nodup : (q.map Prod.snd).Nodup
  q_push : ∀ i ∈ P, remCount depsOf emitted i = 1 → i ∈ q.map Prod.snd

/-- Shape of a scheduled task record as the advanced allocator leaves it:
`actual_start` is either the `inf` sentinel (fresh worker) or the window
start (reused worker, since reuse requires `busyUntil ≤ start_time`), and
the window is non-degenerate. -/
def WTask (t : Task) : Prop :=
  (t.actual_start = .infty ∨ t.actual_start = .fin t.start_time) ∧
  t.start_time < t.end_time

/-- A worker's materialised task list: every record has the scheduled shape
and consecutive windows do not overlap. -/
def WChainList (l : List Task) : Prop :=
  (∀ t ∈ l, WTask t) ∧ l.Chain' (fun a b => a.end_time ≤ b.start_time)

/-- Invariant of `_allocate_resources_optimally` over the processed prefix
of the topological order, stated on the components of the allocation
state. -/
structure AInv (ts : List Task) (processed : List Int)
    (avail : List (Int × Int)) (assignments : List (Int × List Int))
    (workerCount : Int) (tasks : List (Int × Task)) : Prop where
  tasks_keys : tasks.map Prod.fst = taskIds ts
  tasks_pristine : ∀ i, i ∉ processed →
    alookup tasks i = alookup (ts.map (fun t => (t.id, t))) i
  tasks_assigned : ∀ i ∈ processed, ∃ t', alookup tasks i = some t' ∧
    t'.assigned_worker.isSome = true ∧ t'.actual_start ≠ .unset
  count_nonneg : 0 ≤ workerCount
  assign_keys_nodup : (assignments.map Prod.fst).Nodup
  count_bound : ∀ k ∈ assignments.map Prod.fst, 1 ≤ k ∧ k ≤ workerCount
  avail_snd_nodup : (avail.map Prod.snd).Nodup
  avail_assign : ∀ p ∈ avail, ∃ wl, alookup assignments p.2 = some wl ∧
    ∃ t, (wl.filterMap (alookup tasks)).getLast? = some t ∧ t.end_time = p.1
  assign_chain : ∀ q ∈ assignments, (∀ i ∈ q.2, i ∈ processed) ∧
    WChainList (q.2.filterMap (alookup tasks))

/-- Membership of the instant `x` in the half-open execution interval
`[actualStart, actualStart + duration)`; an interval starting at the
`float('inf')` sentinel (or never started) contains no finite instant. -/
def inIntervalAt (a : StartVal) (d : Int) (x : Int) : Prop :=
  match a with
  | .fin s => s ≤ x ∧ x < s + d
  | _ => False

/-- Two tasks' execution intervals overlap at some instant. -/
def taskOverlap (t1 t2 : Task) : Prop :=
  ∃ x : Int, inIntervalAt t1.actual_start t1.duration x ∧
    inIntervalAt t2.actual_start t2.duration x

/-! ### Concrete inputs used by the claims -/

def singleTask : Task := { id := 1, start_time := 0, end_time := 3, dependencies := [] }

def pSingle : PTask := { id := 1, start := 0, end_ := 3, dependencies := [] }

/-- Feasibility failing input: task 3 depends on the long task 1, but a
worker freed by the short independent task 2 lets the allocator start it at
time 2, before task 1 finishes at 10. -/
def feasInput : List Task :=
  [{ id := 1, start_time := 0, end_time := 10, dependencies := [] },
   { id := 2, start_time := 0, end_time := 1, dependencies := [] },
   { id := 3, start_time := 2, end_time := 12, dependencies := [1] }]

/-- Critical-path counterexample: task 2 is registered before its dependency
task 1. -/
def cpInput : List Task :=
  [{ id := 2, start_time := 0, end_time := 2, dependencies := [1] },
   { id := 1, start_time := 0, end_time := 3, dependencies := [] }]

def cycInput : List Task :=
  [{ id := 1, start_time := 0, end_time := 3, dependencies := [2] },
   { id := 2, start_time := 1, end_time := 4, dependencies := [1] }]

def pCycInput : List PTask :=
  [{ id := 1, start := 0, end_ := 3, dependencies := [2] },
   { id := 2, start := 1, end_ := 4, dependencies := [1] }]

def pDupNoDeps : List PTask :=
  [{ id := 1, start := 0, end_ := 3, dependencies := [] },
   { id := 1, start := 1, end_ := 4, dependencies := [] }]

def pDupWithDeps : List PTask :=
  [{ id := 1, start := 0, end_ := 3, dependencies := [] },
   { id := 1, start := 1, end_ := 4, dependencies := [1] }]

def pDangling : List PTask :=
  [{ id := 1, start := 0, end_ := 3, dependencies := [7] },
   { id := 2, start := 0, end_ := 4, dependencies := [] }]

def pChain : List PTask :=
  [{ id := 1, start := 0, end_ := 3, dependencies := [] },
   { id := 2, start := 3, end_ := 6, dependencies := [1] }]

def cpGoodA : Task := { id := 1, start_time := 0, end_time := 3, dependencies := [] }

def cpGoodB : Task := { id := 2, start_time := 1, end_time := 4, dependencies := [1] }

/-- A registration order in which every dependency precedes its dependents. -/
def cpGood : List Task := [cpGoodA, cpGoodB]

/-! ### Helper lemmas -/

theorem alookup_aset_self {β : Type} (l : List (Int × β)) (k : Int) (v : β) :
    alookup (aset l k v) k = some v := by
  induction l with
  | nil => simp [aset, alookup]
  | cons p rest ih =>
    by_cases h : p.1 = k
    · simp [aset, h, alookup]
    · simpa [aset, h, alookup] using ih

theorem alookup_aset_ne {β : Type} (l : List (Int × β)) {k k' : Int}
    (h : k ≠ k') (v : β) : alookup (aset l k v) k' = alookup l k' := by
  induction l with
  | nil => simp [aset, alookup, h]
  | cons p rest ih =>
    by_cases hp : p.1 = k
    · subst hp; simp [aset, alookup, h]
    · by_cases hp' : p.1 = k'
      · simp [aset, hp, alookup, hp', Ne.symm h]
      · simpa [aset, hp, alookup, hp'] using ih

theorem aset_keys_of_mem {β : Type} {l : List (Int × β)} {k : Int}
    (h : k ∈ l.map Prod.fst) (v : β) :
    (aset l k v).map Prod.fst = l.map Prod.fst := by
  induction l with
  | nil => simp at h
  | cons p rest ih =>
    by_cases hp : p.1 = k
    · simp [aset, hp]
    · have : k ∈ rest.map Prod.fst := by
        rcases List.mem_map.mp h with ⟨q, hq, hqk⟩
        rcases List.mem_cons.mp hq with rfl | hq
        · exact absurd hqk hp
        · exact List.mem_map.mpr ⟨q, hq, hqk⟩
      simp [aset, hp, ih this]

theorem aset_keys_of_not_mem {β : Type} {l : List (Int × β)} {k : Int}
    (h : k ∉ l.map Prod.fst) (v : β) : aset l k v = l ++ [(k, v)] := by
  induction l with
  | nil => simp [aset]
  | cons p rest ih =>
    simp only [List.map_cons, List.mem_cons] at h
    push_neg at h
    simp [aset, Ne.symm h.1, ih h.2]

theorem alookup_eq_none {β : Type} {l : List (Int × β)} {k : Int}
    (h : k ∉ l.map Prod.fst) : alookup l k = none := by
  induction l with
  | nil => simp [alookup]
  | cons p rest ih =>
    simp only [List.map_cons, List.mem_cons] at h
    push_neg at h
    have h1 : p.1 ≠ k := Ne.symm h.1
    simp [alookup, h1, ih h.2]

theorem alookup_isSome_of_mem {β : Type} {l : List (Int × β)} {k : Int}
    (h : k ∈ l.map Prod.fst) : (alookup l k).isSome := by
  induction l with
  | nil => simp at h
  | cons p rest ih =>
    by_cases hp : p.1 = k
    · simp [alookup, hp]
    · rcases List.mem_map.mp h with ⟨q, hq, hqk⟩
      rcases List.mem_cons.mp hq with rfl | hq
      · exact absurd hqk hp
      · simpa [alookup, hp] using ih (List.mem_map.mpr ⟨q, hq, hqk⟩)

theorem alookup_append_left {β : Type} {l₁ : List (Int × β)} (l₂ : List (Int × β))
    {k : Int} (h : k ∈ l₁.map Prod.fst) :
    alookup (l₁ ++ l₂) k = alookup l₁ k := by
  induction l₁ with
  | nil => simp at h
  | cons p rest ih =>
    by_cases hp : p.1 = k
    · simp [alookup, hp]
    · rcases List.mem_map.mp h with ⟨q, hq, hqk⟩
      rcases List.mem_cons.mp hq with rfl | hq
      · exact absurd hqk hp
      · simpa [alookup, hp] using ih (List.mem_map.mpr ⟨q, hq, hqk⟩)

theorem alookup_append_right {β : Type} {l₁ : List (Int × β)} (l₂ : List (Int × β))
    {k : Int} (h : k ∉ l₁.map Prod.fst) :
    alookup (l₁ ++ l₂) k = alookup l₂ k := by
  induction l₁ with
  | nil => simp
  | cons p rest ih =>
    simp only [List.map_cons, List.mem_cons] at h
    push_neg at h
    have h1 : p.1 ≠ k := Ne.symm h.1
    simp [alookup, h1, ih h.2]

theorem alookup_map_values {β γ : Type} (l : List (Int × β)) (f : β → γ) (k : Int) :
    alookup (l.map (fun p => (p.1, f p.2))) k = (alookup l k).map f := by
  induction l with
  | nil => simp [alookup]
  | cons p rest ih =>
    by_cases hp : p.1 = k
    · simp [alookup, hp]
    · simpa [alookup, hp] using ih

theorem getList_dappend_self {β : Type} (l : List (Int × List β)) (k : Int) (x : β) :
    getList (dappend l k x) k = getList l k ++ [x] := by
  simp [dappend, getList, alookup_aset_self]

theorem getList_dappend_ne {β : Type} (l : List (Int × List β)) {k k' : Int}
    (h : k ≠ k') (x : β) : getList (dappend l k x) k' = getList l k' := by
  simp [dappend, getList, alookup_aset_ne _ h]

theorem getList_foldl_dappend_fixed {β : Type} (k : Int) (L : List β)
    (g : List (Int × List β)) (j : Int) :
    getList (L.foldl (fun g x => dappend g k x) g) j =
      if j = k then getList g j ++ L else getList g j := by
  induction L generalizing g with
  | nil => simp
  | cons x xs ih =>
    simp only [List.foldl_cons]
    rw [ih]
    by_cases hj : j = k
    · subst hj; simp [getList_dappend_self]
    · simp [hj, getList_dappend_ne _ (fun hh => hj hh.symm)]

theorem getList_foldl_dappend_var {β : Type} (x : β) (L : List Int)
    (g : List (Int × List β)) (j : Int) :
    getList (L.foldl (fun g d => dappend g d x) g) j =
      getList g j ++ List.replicate (L.count j) x := by
  induction L generalizing g with
  | nil => simp
  | cons d ds ih =>
    simp only [List.foldl_cons]
    rw [ih]
    by_cases hd : d = j
    · subst hd
      simp [getList_dappend_self, List.count_cons, List.replicate_succ]
    · simp [getList_dappend_ne _ hd, List.count_cons, Ne.symm hd, hd]

theorem addAll_tasks_fold (st : CState) (ts : List Task) :
    (addAll st ts).tasks = ts.foldl (fun m t => aset m t.id t) st.tasks := by
  induction ts generalizing st with
  | nil => rfl
  | cons t rest ih => simpa [addAll, add_task] using ih (add_task st t)

theorem addAll_depGraph_fold (st : CState) (ts : List Task) :
    (addAll st ts).depGraph =
      ts.foldl (fun g t => t.dependencies.foldl (fun g d => dappend g d t.id) g)
        st.depGraph := by
  induction ts generalizing st with
  | nil => rfl
  | cons t rest ih => simpa [addAll, add_task] using ih (add_task st t)

theorem addAll_revDeps_fold (st : CState) (ts : List Task) :
    (addAll st ts).revDeps =
      ts.foldl (fun g t => t.dependencies.foldl (fun g d => dappend g t.id d) g)
        st.revDeps := by
  induction ts generalizing st with
  | nil => rfl
  | cons t rest ih => simpa [addAll, add_task] using ih (add_task st t)

theorem taskIds_cons (t : Task) (ts : List Task) :
    taskIds (t :: ts) = t.id :: taskIds ts := rfl

theorem foldl_aset_tasks_not_mem {ts : List Task} {i : Int}
    (h : ∀ t ∈ ts, t.id ≠ i) (m : List (Int × Task)) :
    alookup (ts.foldl (fun m t => aset m t.id t) m) i = alookup m i := by
  induction ts generalizing m with
  | nil => rfl
  | cons t rest ih =>
    simp only [List.foldl_cons]
    rw [ih (fun u hu => h u (List.mem_cons_of_mem _ hu)),
      alookup_aset_ne _ (h t (List.mem_cons_self _ _))]

theorem foldl_aset_tasks_mem {ts : List Task} {t : Task} (ht : t ∈ ts)
    (hnd : (taskIds ts).Nodup) (m : List (Int × Task)) :
    alookup (ts.foldl (fun m t => aset m t.id t) m) t.id = some t := by
  induction ts generalizing m with
  | nil => simp at ht
  | cons u rest ih =>
    simp only [taskIds_cons, List.nodup_cons] at hnd
    rcases List.mem_cons.mp ht with rfl | ht
    · simp only [List.foldl_cons]
      have : ∀ v ∈ rest, v.id ≠ t.id := by
        intro v hv hvid
        exact hnd.1 (hvid ▸ List.mem_map.mpr ⟨v, hv, rfl⟩)
      rw [foldl_aset_tasks_not_mem this, alookup_aset_self]
    · simp only [List.foldl_cons]
      exact ih ht hnd.2 _

theorem foldl_aset_tasks_fresh {ts : List Task} (hnd : (taskIds ts).Nodup) :
    ∀ m : List (Int × Task), (∀ t ∈ ts, t.id ∉ m.map Prod.fst) →
    ts.foldl (fun m t => aset m t.id t) m = m ++ ts.map (fun t => (t.id, t)) := by
  induction ts with
  | nil => simp
  | cons t rest ih =>
    intro m hm
    simp only [taskIds_cons, List.nodup_cons] at hnd
    simp only [List.foldl_cons]
    rw [aset_keys_of_not_mem (hm t (List.mem_cons_self _ _)),
      ih hnd.2 _ ?_]
    · simp
    · intro u hu
      simp only [List.map_append, List.mem_append]
      push_neg
      refine ⟨hm u (List.mem_cons_of_mem _ hu), ?_⟩
      simp only [List.map_cons, List.map_nil, List.mem_singleton]
      intro hid
      exact hnd.1 (hid ▸ List.mem_map.mpr ⟨u, hu, rfl⟩)

theorem addAll_tasks_of_fresh {ts : List Task} (hnd : (taskIds ts).Nodup) :
    (addAll freshCState ts).tasks = ts.map (fun t => (t.id, t)) := by
  rw [addAll_tasks_fold]
  simpa using foldl_aset_tasks_fresh hnd [] (by simp [freshCState])

theorem assoc_ext {β : Type} :
    ∀ {l₁ l₂ : List (Int × β)}, l₁.map Prod.fst = l₂.map Prod.fst →
      (l₁.map Prod.fst).Nodup → (∀ k, alookup l₁ k = alookup l₂ k) → l₁ = l₂ := by
  intro l₁
  induction l₁ with
  | nil =>
    intro l₂ hk _ _
    cases l₂ with
    | nil => rfl
    | cons q r₂ => simp at hk
  | cons p r ih =>
    intro l₂ hk hnd h
    cases l₂ with
    | nil => simp at hk
    | cons q r₂ =>
      simp only [List.map_cons, List.cons.injEq] at hk
      simp only [List.map_cons, List.nodup_cons] at hnd
      have hval : p.2 = q.2 := by
        have := h p.1
        rw [show alookup (p :: r) p.1 = some p.2 by simp [alookup],
          show alookup (q :: r₂) p.1 = some q.2 by simp [alookup, hk.1]] at this
        exact Option.some_inj.mp this
      have hpq : p = q := Prod.ext hk.1 hval
      subst hpq
      congr 1
      refine ih hk.2 hnd.2 ?_
      intro k
      by_cases hkp : k = p.1
      · subst hkp
        rw [alookup_eq_none hnd.1, alookup_eq_none (hk.2 ▸ hnd.1)]
      · have := h k
        rwa [show alookup (p :: r) k = alookup r k by
            simp [alookup, Ne.symm hkp],
          show alookup (p :: r₂) k = alookup r₂ k by
            simp [alookup, Ne.symm hkp]] at this

theorem validateEach_ok {ts : List PTask} {i : Nat}
    (h : validateEach ts i = .ok ()) :
    ∀ t ∈ ts, 0 ≤ t.id ∧ 0 ≤ t.start ∧ t.start < t.end_ := by
  induction ts generalizing i with
  | nil => simp
  | cons t rest ih =>
    unfold validateEach at h
    by_cases h1 : t.id < 0
    · simp [h1] at h
    · by_cases h2 : t.start < 0
      · simp [h1, h2] at h
      · by_cases h3 : t.end_ ≤ t.start
        · simp [h1, h2, h3] at h
        · simp only [h1, h2, h3, if_false] at h
          intro u hu
          rcases List.mem_cons.mp hu with rfl | hu
          · exact ⟨by omega, by omega, by omega⟩
          · exact ih h u hu

theorem foldl_max_char (f : Int → Int) :
    ∀ (L : List Int) (s : Int),
    s ≤ L.foldl (fun a d => max a (f d)) s ∧
    (∀ d ∈ L, f d ≤ L.foldl (fun a d => max a (f d)) s) ∧
    (L.foldl (fun a d => max a (f d)) s = s ∨
      ∃ d ∈ L, L.foldl (fun a d => max a (f d)) s = f d) := by
  intro L
  induction L with
  | nil => simp
  | cons x xs ih =>
    intro s
    simp only [List.foldl_cons]
    obtain ⟨h1, h2, h3⟩ := ih (max s (f x))
    refine ⟨le_trans (le_max_left _ _) h1, ?_, ?_⟩
    · intro d hd
      rcases List.mem_cons.mp hd with rfl | hd
      · exact le_trans (le_max_right _ _) h1
      · exact h2 d hd
    · rcases h3 with h | ⟨d, hd, hval⟩
      · rcases max_choice s (f x) with hm | hm
        · exact Or.inl (h.trans hm)
        · exact Or.inr ⟨x, List.mem_cons_self _ _, h.trans hm⟩
      · exact Or.inr ⟨d, List.mem_cons_of_mem _ hd, hval⟩

theorem cp_es_fold (info : List (Int × CritInfo)) :
    ∀ (L : List Int) (s : Int), (∀ d ∈ L, (alookup info d).isSome = true) →
    L.foldl (fun es d =>
      match alookup info d with
      | some i => max es i.earliest_finish
      | none => es) s = L.foldl (fun a d => max a (efOf info d)) s := by
  intro L
  induction L with
  | nil => intro s _; rfl
  | cons x xs ih =>
    intro s h
    obtain ⟨j, hj⟩ := Option.isSome_iff_exists.mp (h x (List.mem_cons_self _ _))
    simp only [List.foldl_cons, hj]
    rw [ih _ (fun d hd => h d (List.mem_cons_of_mem _ hd))]
    have : efOf info x = j.earliest_finish := by simp [efOf, hj]
    rw [this]

theorem cp_step_inv {done : List Task} {info : List (Int × CritInfo)} {t : Task}
    (hInv : CPInv done info)
    (hdeps : ∀ d ∈ t.dependencies, d ∈ taskIds done)
    (hfresh : t.id ∉ taskIds done) :
    CPInv (done ++ [t]) (cpStep info (t.id, t)) := by
  obtain ⟨hkeys, hprops⟩ := hInv
  have hpres : ∀ d ∈ t.dependencies, (alookup info d).isSome = true := fun d hd =>
    alookup_isSome_of_mem (hkeys ▸ hdeps d hd)
  have hfreshk : t.id ∉ info.map Prod.fst := hkeys ▸ hfresh
  have hnone : alookup info t.id = none := alookup_eq_none hfreshk
  have hdne : ∀ d ∈ t.dependencies, d ≠ t.id := by
    intro d hd he
    obtain ⟨j, hj⟩ := Option.isSome_iff_exists.mp (hpres d hd)
    rw [he, hnone] at hj
    cases hj
  have hes := cp_es_fold info t.dependencies t.start_time hpres
  obtain ⟨hc1, hc2, hc3⟩ := foldl_max_char (efOf info) t.dependencies t.start_time
  constructor
  · rw [show cpStep info (t.id, t) = aset info t.id
        { earliest_start := t.dependencies.foldl (fun es d =>
            match alookup info d with
            | some i => max es i.earliest_finish
            | none => es) t.start_time
          earliest_finish := (t.dependencies.foldl (fun es d =>
            match alookup info d with
            | some i => max es i.earliest_finish
            | none => es) t.start_time) + t.duration
          latest_start := t.start_time, latest_finish := t.end_time
          slack := 0 } from rfl,
      aset_keys_of_not_mem hfreshk]
    simp [taskIds]
    exact hkeys
  · intro u hu
    rcases List.mem_append.mp hu with hu | hu
    · obtain ⟨i, hi, h1, h2, h3, h4⟩ := hprops u hu
      have huid : u.id ≠ t.id := by
        intro he
        exact hfresh (he ▸ List.mem_map.mpr ⟨u, hu, rfl⟩)
      have hlook : ∀ k, k ≠ t.id →
          alookup (cpStep info (t.id, t)) k = alookup info k := by
        intro k hk
        show alookup (aset info t.id _) k = alookup info k
        exact alookup_aset_ne _ (fun he => hk he.symm) _
      refine ⟨i, by rw [hlook u.id huid]; exact hi, h1, h2, ?_, ?_⟩
      · intro d hd
        obtain ⟨j, hj, hle⟩ := h3 d hd
        have hdt : d ≠ t.id := by
          intro he
          rw [he, hnone] at hj
          cases hj
        exact ⟨j, by rw [hlook d hdt]; exact hj, hle⟩
      · rcases h4 with h | ⟨d, hd, j, hj, hval⟩
        · exact Or.inl h
        · have hdt : d ≠ t.id := by
            intro he
            rw [he, hnone] at hj
            cases hj
          exact Or.inr ⟨d, hd, j, by rw [hlook d hdt]; exact hj, hval⟩
    · rcases List.mem_singleton.mp hu with rfl
      have hself : alookup (cpStep info (u.id, u)) u.id = some
          { earliest_start := u.dependencies.foldl (fun es d =>
              match alookup info d with
              | some i => max es i.earliest_finish
              | none => es) u.start_time
            earliest_finish := (u.dependencies.foldl (fun es d =>
              match alookup info d with
              | some i => max es i.earliest_finish
              | none => es) u.start_time) + u.duration
            latest_start := u.start_time, latest_finish := u.end_time
            slack := 0 } := alookup_aset_self _ _ _
      refine ⟨_, hself, rfl, ?_, ?_, ?_⟩
      · simpa [hes] using hc1
      · intro d hd
        obtain ⟨j, hj⟩ := Option.isSome_iff_exists.mp (hpres d hd)
        have hlook : alookup (cpStep info (u.id, u)) d = alookup info d := by
          show alookup (aset info u.id _) d = alookup info d
          exact alookup_aset_ne _ (fun he => (hdne d hd) he.symm) _
        refine ⟨j, by rw [hlook]; exact hj, ?_⟩
        have := hc2 d hd
        have hefj : efOf info d = j.earliest_finish := by simp [efOf, hj]
        simpa [hes, hefj] using this
      · rcases hc3 with h | ⟨d, hd, hval⟩
        · exact Or.inl (by simpa [hes] using h)
        · obtain ⟨j, hj⟩ := Option.isSome_iff_exists.mp (hpres d hd)
          have hlook : alookup (cpStep info (u.id, u)) d = alookup info d := by
            show alookup (aset info u.id _) d = alookup info d
            exact alookup_aset_ne _ (fun he => (hdne d hd) he.symm) _
          refine Or.inr ⟨d, hd, j, by rw [hlook]; exact hj, ?_⟩
          have hefj : efOf info d = j.earliest_finish := by simp [efOf, hj]
          simpa [hes, hefj] using hval

theorem cp_fold_inv : ∀ (rest done : List Task) (info : List (Int × CritInfo)),
    (taskIds (done ++ rest)).Nodup →
    (∀ k : Fin rest.length, ∀ d ∈ (rest.get k).dependencies,
        d ∈ taskIds (done ++ rest.take k.1)) →
    CPInv done info →
    CPInv (done ++ rest) ((rest.map (fun t => (t.id, t))).foldl cpStep info) := by
  intro rest
  induction rest with
  | nil =>
    intro done info _ _ h
    simpa using h
  | cons t rest' ih =>
    intro done info hnd hpre hInv
    simp only [List.map_cons, List.foldl_cons]
    have hdeps : ∀ d ∈ t.dependencies, d ∈ taskIds done := by
      intro d hd
      have := hpre ⟨0, by simp⟩ d (by simpa using hd)
      simpa using this
    have hfresh : t.id ∉ taskIds done := by
      intro hmem
      have : taskIds (done ++ t :: rest') =
          taskIds done ++ t.id :: taskIds rest' := by simp [taskIds]
      rw [this] at hnd
      exact (List.disjoint_of_nodup_append hnd) hmem (List.mem_cons_self _ _)
    have hstep := cp_step_inv hInv hdeps hfresh
    have happ : done ++ t :: rest' = (done ++ [t]) ++ rest' := by simp
    rw [happ] at hnd
    have hgoal := ih (done ++ [t]) (cpStep info (t.id, t)) hnd ?_ hstep
    · rw [show done ++ t :: rest' = (done ++ [t]) ++ rest' from by simp]
      exact hgoal
    · intro k d hd
      have := hpre ⟨k.1 + 1, by simp only [List.length_cons]; exact Nat.succ_lt_succ k.2⟩
        d (by simpa using hd)
      have harr : done ++ (t :: rest').take (k.1 + 1) =
          (done ++ [t]) ++ rest'.take k.1 := by
        simp [List.take_succ_cons]
      rwa [harr] at this

theorem mem_qinsert {a x : Int × Int} : ∀ {q : List (Int × Int)},
    a ∈ qinsert x q ↔ a = x ∨ a ∈ q := by
  intro q
  induction q with
  | nil => simp [qinsert]
  | cons y rest ih =>
    by_cases h : pairLe x y
    · simp [qinsert, h]
    · simp only [qinsert, h, Bool.false_eq_true, if_false, List.mem_cons, ih]
      tauto

theorem qinsert_perm (x : Int × Int) : ∀ (q : List (Int × Int)),
    List.Perm (qinsert x q) (x :: q) := by
  intro q
  induction q with
  | nil => exact List.Perm.refl _
  | cons y rest ih =>
    by_cases h : pairLe x y
    · simp [qinsert, h]
    · simp only [qinsert, h, Bool.false_eq_true, if_false]
      exact (ih.cons y).trans (List.Perm.swap x y rest)

theorem qinsert_length (x : Int × Int) (q : List (Int × Int)) :
    (qinsert x q).length = q.length + 1 := by
  simpa using (qinsert_perm x q).length_eq

theorem qinsert_map_snd_perm (x : Int × Int) (q : List (Int × Int)) :
    List.Perm ((qinsert x q).map Prod.snd) (x.2 :: q.map Prod.snd) := by
  simpa using (qinsert_perm x q).map Prod.snd

theorem filter_length_mono {p q : Int → Bool}
    (h : ∀ a, p a = true → q a = true) :
    ∀ L : List Int, (L.filter p).length ≤ (L.filter q).length := by
  intro L
  induction L with
  | nil => simp
  | cons a rest ih =>
    by_cases hp : p a
    · simp [List.filter_cons, hp, h a hp]
      omega
    · by_cases hq : q a <;> simp [List.filter_cons, hp, hq] <;> omega

theorem remCount_mono_append (depsOf : Int → List Int) (emitted l : List Int)
    (i : Int) :
    remCount depsOf (emitted ++ l) i ≤ remCount depsOf emitted i := by
  unfold remCount
  apply filter_length_mono
  intro a ha
  simp only [Bool.not_eq_eq_eq_not, Bool.not_true, decide_eq_false_iff_not,
    List.mem_append] at ha ⊢
  tauto

theorem remCount_zero_iff {depsOf : Int → List Int} {emitted : List Int} {i : Int} :
    remCount depsOf emitted i = 0 ↔ ∀ d ∈ depsOf i, d ∈ emitted := by
  unfold remCount
  rw [List.length_eq_zero, List.filter_eq_nil_iff]
  constructor
  · intro h d hd
    have := h d hd
    simpa using this
  · intro h d hd
    simpa using h d hd

theorem remCount_pos {depsOf : Int → List Int} {emitted : List Int} {i d : Int}
    (hd : d ∈ depsOf i) (hne : d ∉ emitted) :
    0 < remCount depsOf emitted i := by
  unfold remCount
  apply List.length_pos.mpr
  apply List.ne_nil_of_mem (a := d)
  simp [List.mem_filter, hd, hne]

theorem remCount_append_zero {depsOf : Int → List Int} {emitted : List Int}
    {i : Int} (h : remCount depsOf emitted i = 0) (l : List Int) :
    remCount depsOf (emitted ++ l) i = 0 :=
  Nat.le_zero.mp (h ▸ remCount_mono_append depsOf emitted l i)

theorem remCount_append_not_dep {depsOf : Int → List Int} {emitted : List Int}
    {i c : Int} (hc : c ∉ depsOf i) :
    remCount depsOf (emitted ++ [c]) i = remCount depsOf emitted i := by
  unfold remCount
  congr 1
  apply List.filter_congr
  intro d hd
  have hne : d ≠ c := fun h => hc (h ▸ hd)
  simp [List.mem_append, hne]

theorem filter_ne_length : ∀ {M : List Int}, M.Nodup → ∀ {c : Int}, c ∈ M →
    (M.filter (fun d => !(decide (d = c)))).length + 1 = M.length := by
  intro M
  induction M with
  | nil => intro _ c hc; simp at hc
  | cons a rest ih =>
    intro hnd c hc
    simp only [List.nodup_cons] at hnd
    by_cases hac : a = c
    · subst hac
      have hrest : rest.filter (fun d => !(decide (d = a))) = rest := by
        apply List.filter_eq_self.mpr
        intro d hd
        simp only [Bool.not_eq_eq_eq_not, Bool.not_true, decide_eq_false_iff_not]
        intro he
        exact hnd.1 (he ▸ hd)
      simp [List.filter_cons, hrest]
    · have hc' : c ∈ rest := by
        rcases List.mem_cons.mp hc with h | h
        · exact absurd h.symm hac
        · exact h
      have hkeep : (a :: rest).filter (fun d => !(decide (d = c))) =
          a :: rest.filter (fun d => !(decide (d = c))) := by
        simp [List.filter_cons, hac]
      rw [hkeep]
      simp only [List.length_cons]
      have := ih hnd.2 hc'
      omega

theorem remCount_append_dep {depsOf : Int → List Int} {emitted : List Int}
    {i c : Int} (hnd : (depsOf i).Nodup) (hc : c ∈ depsOf i) (hcne : c ∉ emitted) :
    remCount depsOf (emitted ++ [c]) i + 1 = remCount depsOf emitted i := by
  unfold remCount
  have hsplit : (depsOf i).filter (fun d => !(decide (d ∈ emitted ++ [c]))) =
      ((depsOf i).filter (fun d => !(decide (d ∈ emitted)))).filter
        (fun d => !(decide (d = c))) := by
    rw [List.filter_filter]
    apply List.filter_congr
    intro d _
    by_cases h1 : d ∈ emitted <;> by_cases h2 : d = c <;>
      simp [List.mem_append, h1, h2]
  rw [hsplit]
  apply filter_ne_length (List.Nodup.filter _ hnd)
  simp [List.mem_filter, hc, hcne]

theorem degWeight_shift : ∀ (l : List (Int × Int)) (a : Nat),
    l.foldl (fun n p => n + p.2.toNat) a = a + l.foldl (fun n p => n + p.2.toNat) 0 := by
  intro l
  induction l with
  | nil => simp
  | cons p rest ih =>
    intro a
    simp only [List.foldl_cons, Nat.zero_add]
    rw [ih (a + p.2.toNat), ih p.2.toNat]
    omega

theorem degWeight_cons (p : Int × Int) (deg : List (Int × Int)) :
    degWeight (p :: deg) = p.2.toNat + degWeight deg := by
  unfold degWeight
  simp only [List.foldl_cons, Nat.zero_add]
  exact degWeight_shift deg p.2.toNat

theorem degWeight_append (l₁ l₂ : List (Int × Int)) :
    degWeight (l₁ ++ l₂) = degWeight l₁ + degWeight l₂ := by
  induction l₁ with
  | nil => simp [degWeight]
  | cons p rest ih => simp [degWeight_cons, ih]; omega

theorem degWeight_aset : ∀ {deg : List (Int × Int)} {i v : Int},
    alookup deg i = some v → ∀ w,
    degWeight (aset deg i w) + v.toNat = degWeight deg + w.toNat := by
  intro deg
  induction deg with
  | nil => intro i v h w; simp [alookup] at h
  | cons p rest ih =>
    intro i v h w
    by_cases hp : p.1 = i
    · rw [show alookup (p :: rest) i = some p.2 by simp [alookup, hp]] at h
      injection h with h
      subst h
      simp [aset, hp, degWeight_cons]
      omega
    · rw [show alookup (p :: rest) i = alookup rest i by simp [alookup, hp]] at h
      simp only [aset, hp, if_false]
      rw [degWeight_cons, degWeight_cons]
      have := ih h w
      omega

theorem degWeight_aset_none {deg : List (Int × Int)} {i : Int}
    (h : alookup deg i = none) (w : Int) :
    degWeight (aset deg i w) = degWeight deg + w.toNat := by
  have hk : i ∉ deg.map Prod.fst := by
    intro hmem
    have := alookup_isSome_of_mem hmem
    rw [h] at this
    cases this
  rw [aset_keys_of_not_mem hk, degWeight_append]
  simp [degWeight, degWeight_cons]

theorem processDependents_fuel (key : Int → Int) : ∀ (L : List Int)
    (q deg : List (Int × Int)),
    kahnFuel (processDependents key L q deg).1 (processDependents key L q deg).2 ≤
      kahnFuel q deg := by
  intro L
  induction L with
  | nil => intro q deg; exact le_refl _
  | cons d ds ih =>
    intro q deg
    show kahnFuel (processDependents key (d :: ds) q deg).1 _ ≤ _
    rw [show processDependents key (d :: ds) q deg =
      processDependents key ds
        (if (alookup deg d).getD 0 - 1 = 0
         then qinsert (key d, d) q else q)
        (aset deg d ((alookup deg d).getD 0 - 1)) from rfl]
    refine le_trans (ih _ _) ?_
    rcases hl : alookup deg d with _ | v
    · have hnd : (0 : Int) - 1 ≠ 0 := by decide
      simp only [hl, Option.getD_none, hnd, if_false]
      rw [kahnFuel, kahnFuel, degWeight_aset_none hl]
      simp
    · simp only [hl, Option.getD_some]
      have hw := degWeight_aset hl (v - 1)
      by_cases hz : v - 1 = 0
      · simp only [hz, if_true]
        rw [kahnFuel, kahnFuel, qinsert_length]
        have hv : v = 1 := by omega
        subst hv
        simp at hw ⊢
        omega
      · simp only [hz, if_false]
        rw [kahnFuel, kahnFuel]
        have : (v - 1).toNat ≤ v.toNat := by omega
        omega

theorem processDependents_inv
    (ids : List Int) (depsOf : Int → List Int) (key : Int → Int)
    (emitted : List Int) (rest : List (Int × Int)) (c : Int)
    (hrest_rc : ∀ p ∈ rest, remCount depsOf emitted p.2 = 0)
    (hcne : c ∉ emitted) :
    ∀ (S P : List Int) (q deg : List (Int × Int)),
    (P ++ S).Nodup →
    (∀ i ∈ P ++ S, i ∈ ids ∧ c ∈ depsOf i) →
    PDInv ids depsOf key emitted rest P q deg →
    PDInv ids depsOf key emitted rest (P ++ S)
      (processDependents key S q deg).1 (processDependents key S q deg).2 := by
  intro S
  induction S with
  | nil =>
    intro P q deg _ _ h
    simpa using h
  | cons d S' ih =>
    intro P q deg hnd hmem hInv
    have hdL := hmem d (by simp)
    have hdid : d ∈ ids := hdL.1
    have hdc : c ∈ depsOf d := hdL.2
    have hdP : d ∉ P := by
      intro hdP
      have hdisj := List.disjoint_of_nodup_append hnd
      exact hdisj hdP (by simp)
    have hrc : 0 < remCount depsOf emitted d := remCount_pos hdc hcne
    have hlook : alookup deg d = some ((remCount depsOf emitted d : Int)) := by
      have := hInv.deg_val d hdid
      simpa [hdP] using this
    have hgetD : (alookup deg d).getD 0 = (remCount depsOf emitted d : Int) := by
      rw [hlook]
      rfl
    rw [show processDependents key (d :: S') q deg = processDependents key S'
        (if (alookup deg d).getD 0 - 1 = 0 then qinsert (key d, d) q else q)
        (aset deg d ((alookup deg d).getD 0 - 1)) from rfl]
    have happ : P ++ d :: S' = (P ++ [d]) ++ S' := by simp
    rw [happ]
    have hnotq : d ∉ q.map Prod.snd := by
      intro hq
      obtain ⟨p, hp, hsnd⟩ := List.mem_map.mp hq
      rcases hInv.q_from p hp with hp' | ⟨hpP, _, _⟩
      · have := hrest_rc p hp'
        rw [hsnd] at this
        omega
      · exact hdP (hsnd ▸ hpP)
    refine ih (P ++ [d]) _ _ (by rw [← happ]; exact hnd)
      (by rw [← happ]; exact hmem) ?_
    by_cases hpush : (alookup deg d).getD 0 - 1 = 0
    · have hrc1 : remCount depsOf emitted d = 1 := by
        rw [hgetD] at hpush
        omega
      simp only [hpush, if_true]
      constructor
      · intro i hi
        by_cases hid : i = d
        · subst hid
          rw [alookup_aset_self]
          simp [hrc1]
        · rw [alookup_aset_ne _ (fun h => hid h.symm), hInv.deg_val i hi]
          simp [List.mem_append, hid]
      · intro p hp
        exact mem_qinsert.mpr (Or.inr (hInv.q_sup p hp))
      · intro p hp
        rcases mem_qinsert.mp hp with rfl | hp
        · exact Or.inr ⟨by simp, rfl, hrc1⟩
        · rcases hInv.q_from p hp with h | ⟨h1, h2, h3⟩
          · exact Or.inl h
          · exact Or.inr ⟨by simp [h1], h2, h3⟩
      · have hperm := qinsert_map_snd_perm (key d, d) q
        rw [hperm.nodup_iff]
        exact List.nodup_cons.mpr ⟨hnotq, hInv.q_nodup⟩
      · intro i hi hrci
        rcases List.mem_append.mp hi with hi | hi
        · obtain ⟨p, hp, hsnd⟩ := List.mem_map.mp (hInv.q_push i hi hrci)
          exact List.mem_map.mpr ⟨p, mem_qinsert.mpr (Or.inr hp), hsnd⟩
        · rcases List.mem_singleton.mp hi with rfl
          exact List.mem_map.mpr ⟨(key i, i), mem_qinsert.mpr (Or.inl rfl), rfl⟩
    · have hrcne : remCount depsOf emitted d ≠ 1 := by
        intro h
        rw [hgetD, h] at hpush
        exact hpush (by decide)
      simp only [hpush, if_false]
      constructor
      · intro i hi
        by_cases hid : i = d
        · subst hid
          rw [alookup_aset_self, hgetD]
          simp
        · rw [alookup_aset_ne _ (fun h => hid h.symm), hInv.deg_val i hi]
          simp [List.mem_append, hid]
      · exact hInv.q_sup
      · intro p hp
        rcases hInv.q_from p hp with h | ⟨h1, h2, h3⟩
        · exact Or.inl h
        · exact Or.inr ⟨by simp [h1], h2, h3⟩
      · exact hInv.q_nodup
      · intro i hi hrci
        rcases List.mem_append.mp hi with hi | hi
        · exact hInv.q_push i hi hrci
        · rcases List.mem_singleton.mp hi with rfl
          exact absurd hrci hrcne

theorem kahn_step
    (ids : List Int) (depsOf : Int → List Int) (key : Int → Int)
    (hids : ids.Nodup) (hdnodup : ∀ i ∈ ids, (depsOf i).Nodup)
    (G : List (Int × List Int))
    (hG : ∀ j, getList G j = ids.filter (fun i => decide (j ∈ depsOf i)))
    {emitted : List Int} {k0 c : Int} {rest deg : List (Int × Int)}
    (hKI : KInv ids depsOf key emitted ((k0, c) :: rest) deg) :
    KInv ids depsOf key (emitted ++ [c])
      (processDependents key (getList G c) rest deg).1
      (processDependents key (getList G c) rest deg).2 := by
  obtain ⟨hcid, hkey0, hcne⟩ := hKI.q_mem (k0, c) (by simp)
  have hcrc : remCount depsOf emitted c = 0 := hKI.q_ready (k0, c) (by simp)
  have hLnodup : (getList G c).Nodup := by
    rw [hG c]
    exact hids.filter _
  have hLmem : ∀ i, i ∈ getList G c ↔ i ∈ ids ∧ c ∈ depsOf i := by
    intro i
    rw [hG c, List.mem_filter]
    simp
  have hcnotL : c ∉ getList G c := by
    intro hc
    have := (hLmem c).mp hc
    have := remCount_pos this.2 hcne
    omega
  have hcnotrest : c ∉ rest.map Prod.snd := by
    have := hKI.q_nodup
    simp only [List.map_cons, List.nodup_cons] at this
    exact this.1
  have hrest_rc : ∀ p ∈ rest, remCount depsOf emitted p.2 = 0 :=
    fun p hp => hKI.q_ready p (List.mem_cons_of_mem _ hp)
  have hP0 : PDInv ids depsOf key emitted rest [] rest deg := by
    constructor
    · intro i hi
      have := hKI.deg_val i hi
      simpa using this
    · intro p hp; exact hp
    · intro p hp; exact Or.inl hp
    · have := hKI.q_nodup
      simp only [List.map_cons, List.nodup_cons] at this
      exact this.2
    · intro i hi; simp at hi
  have hPD := processDependents_inv ids depsOf key emitted rest c hrest_rc hcne
    (getList G c) [] rest deg (by simpa using hLnodup)
    (by simpa using fun i hi => (hLmem i).mp hi) hP0
  simp only [List.nil_append] at hPD
  -- names for the final queue and degree map
  constructor
  · -- em_nodup
    rw [List.nodup_append]
    exact ⟨hKI.em_nodup, List.nodup_singleton c, by
      intro a ha hb
      rcases List.mem_singleton.mp hb with rfl
      exact hcne ha⟩
  · -- em_sub
    intro i hi
    rcases List.mem_append.mp hi with hi | hi
    · exact hKI.em_sub i hi
    · rcases List.mem_singleton.mp hi with rfl
      exact hcid
  · -- em_done
    intro i hi
    rcases List.mem_append.mp hi with hi | hi
    · exact remCount_append_zero (hKI.em_done i hi) _
    · rcases List.mem_singleton.mp hi with rfl
      exact remCount_append_zero hcrc _
  · -- q_mem
    intro p hp
    rcases hPD.q_from p hp with hp' | ⟨hpL, hpkey, hprc⟩
    · obtain ⟨h1, h2, h3⟩ := hKI.q_mem p (List.mem_cons_of_mem _ hp')
      refine ⟨h1, h2, ?_⟩
      intro hmem
      rcases List.mem_append.mp hmem with hmem | hmem
      · exact h3 hmem
      · rcases List.mem_singleton.mp hmem with he
        exact hcnotrest (he ▸ List.mem_map.mpr ⟨p, hp', rfl⟩)
    · have hpids : p.2 ∈ ids := ((hLmem p.2).mp hpL).1
      refine ⟨hpids, hpkey, ?_⟩
      intro hmem
      rcases List.mem_append.mp hmem with hmem | hmem
      · have := hKI.em_done p.2 hmem
        omega
      · rcases List.mem_singleton.mp hmem with he
        exact hcnotL (he ▸ hpL)
  · -- q_nodup
    exact hPD.q_nodup
  · -- q_ready
    intro p hp
    rcases hPD.q_from p hp with hp' | ⟨hpL, _, hprc⟩
    · exact remCount_append_zero (hrest_rc p hp') _
    · have hpids := (hLmem p.2).mp hpL
      have := @remCount_append_dep depsOf emitted p.2 c
        (hdnodup p.2 hpids.1) hpids.2 hcne
      omega
  · -- deg_val
    intro i hi
    have := hPD.deg_val i hi
    rw [this]
    by_cases hiL : i ∈ getList G c
    · have hidep := (hLmem i).mp hiL
      have hdec := @remCount_append_dep depsOf emitted i c
        (hdnodup i hi) hidep.2 hcne
      simp only [hiL, if_true]
      congr 1
      omega
    · have hnodep : c ∉ depsOf i := fun hc => hiL ((hLmem i).mpr ⟨hi, hc⟩)
      rw [remCount_append_not_dep hnodep]
      simp [hiL]
  · -- ready_q
    intro i hi hine hrc'
    by_cases hrc0 : remCount depsOf emitted i = 0
    · have hiq := hKI.ready_q i hi (fun h => hine (List.mem_append.mpr (Or.inl h))) hrc0
      simp only [List.map_cons, List.mem_cons] at hiq
      rcases hiq with rfl | hiq
      · exact absurd (List.mem_append.mpr (Or.inr (by simp))) hine
      · obtain ⟨p, hp, hsnd⟩ := List.mem_map.mp hiq
        exact List.mem_map.mpr ⟨p, hPD.q_sup p hp, hsnd⟩
    · have hdep : c ∈ depsOf i := by
        by_contra hnd
        rw [remCount_append_not_dep hnd] at hrc'
        exact hrc0 hrc'
      have hiL : i ∈ getList G c := (hLmem i).mpr ⟨hi, hdep⟩
      have hdec := @remCount_append_dep depsOf emitted i c
        (hdnodup i hi) hdep hcne
      have hrc1 : remCount depsOf emitted i = 1 := by omega
      exact hPD.q_push i hiL hrc1

theorem topoPrefix_append {depsOf : Int → List Int} {emitted : List Int} {c : Int}
    (h : TopoPrefix depsOf emitted) (hc : ∀ d ∈ depsOf c, d ∈ emitted) :
    TopoPrefix depsOf (emitted ++ [c]) := by
  intro k d hd
  by_cases hk : k.1 < emitted.length
  · have hget : (emitted ++ [c]).get k = emitted.get ⟨k.1, hk⟩ := by
      rw [List.get_eq_getElem, List.get_eq_getElem, List.getElem_append_left hk]
    rw [hget] at hd
    have := h ⟨k.1, hk⟩ d hd
    rw [List.take_append_of_le_length (le_of_lt hk)]
    exact this
  · have hk' : k.1 = emitted.length := by
      have := k.2
      simp only [List.length_append, List.length_singleton] at this
      omega
    have hget : (emitted ++ [c]).get k = c := by
      rw [List.get_eq_getElem, List.getElem_append_right hk'.ge]
      simp [hk']
    rw [hget] at hd
    rw [hk', List.take_left]
    exact hc d hd

theorem first_violation {P : Int → Prop} [DecidablePred P] :
    ∀ (σ : List Int), (∃ x ∈ σ, ¬ P x) →
    ∃ pre x suf, σ = pre ++ x :: suf ∧ ¬ P x ∧ ∀ y ∈ pre, P y := by
  intro σ
  induction σ with
  | nil =>
    intro h
    simp at h
  | cons a rest ih =>
    intro h
    by_cases ha : P a
    · have hex : ∃ x ∈ rest, ¬ P x := by
        rcases h with ⟨x, hx, hnx⟩
        rcases List.mem_cons.mp hx with rfl | hx
        · exact absurd ha hnx
        · exact ⟨x, hx, hnx⟩
      obtain ⟨pre, x, suf, heq, hnx, hpre⟩ := ih hex
      refine ⟨a :: pre, x, suf, by rw [heq]; rfl, hnx, ?_⟩
      intro y hy
      rcases List.mem_cons.mp hy with rfl | hy
      · exact ha
      · exact hpre y hy
    · exact ⟨[], a, rest, rfl, ha, by simp⟩

theorem kahn_complete_of_empty
    (ids : List Int) (depsOf : Int → List Int) (key : Int → Int)
    {emitted : List Int} {deg : List (Int × Int)}
    (hKI : KInv ids depsOf key emitted [] deg)
    (σ : List Int) (hσc : ∀ i ∈ ids, i ∈ σ) (hσi : ∀ i ∈ σ, i ∈ ids)
    (hσt : TopoPrefix depsOf σ) :
    ∀ i ∈ ids, i ∈ emitted := by
  by_contra hcon
  push_neg at hcon
  obtain ⟨i0, hi0, hi0ne⟩ := hcon
  have hex : ∃ x ∈ σ, ¬ (x ∈ emitted) := ⟨i0, hσc i0 hi0, hi0ne⟩
  obtain ⟨pre, x, suf, heq, hnx, hpre⟩ := first_violation σ hex
  have hxσ : x ∈ σ := by
    rw [heq]
    simp
  have hxids : x ∈ ids := hσi x hxσ
  have hdeps : ∀ d ∈ depsOf x, d ∈ emitted := by
    intro d hd
    have hk : pre.length < σ.length := by
      rw [heq]
      simp
    have hget : σ.get ⟨pre.length, hk⟩ = x := by
      subst heq
      rw [List.get_eq_getElem,
        List.getElem_append_right (Nat.le_refl pre.length)]
      simp
    have h2 : d ∈ σ.take pre.length :=
      hσt ⟨pre.length, hk⟩ d (by rw [hget]; exact hd)
    rw [heq, List.take_left] at h2
    exact hpre d h2
  have hrc : remCount depsOf emitted x = 0 := remCount_zero_iff.mpr hdeps
  have := hKI.ready_q x hxids hnx hrc
  simp at this

theorem kahn_main
    (G : List (Int × List Int)) (key : Int → Int)
    (ids : List Int) (depsOf : Int → List Int)
    (hids : ids.Nodup) (hdnodup : ∀ i ∈ ids, (depsOf i).Nodup)
    (hG : ∀ j, getList G j = ids.filter (fun i => decide (j ∈ depsOf i)))
    (σ : List Int) (hσc : ∀ i ∈ ids, i ∈ σ) (hσi : ∀ i ∈ σ, i ∈ ids)
    (hσt : TopoPrefix depsOf σ) :
    ∀ (fuel : Nat) (emitted : List Int) (queue deg : List (Int × Int)),
    KInv ids depsOf key emitted queue deg →
    TopoPrefix depsOf emitted →
    kahnFuel queue deg ≤ fuel →
    TopoPrefix depsOf (kahnLoop G key fuel queue deg emitted) ∧
    (kahnLoop G key fuel queue deg emitted).Nodup ∧
    (∀ i ∈ kahnLoop G key fuel queue deg emitted, i ∈ ids) ∧
    (∀ i ∈ ids, i ∈ kahnLoop G key fuel queue deg emitted) := by
  intro fuel
  induction fuel with
  | zero =>
    intro emitted queue deg hKI hTP hfuel
    have hq : queue = [] := by
      have hlen : queue.length = 0 := by
        unfold kahnFuel at hfuel
        omega
      exact List.length_eq_zero.mp hlen
    subst hq
    exact ⟨hTP, hKI.em_nodup, hKI.em_sub,
      kahn_complete_of_empty ids depsOf key hKI σ hσc hσi hσt⟩
  | succ f ih =>
    intro emitted queue deg hKI hTP hfuel
    cases queue with
    | nil =>
      exact ⟨hTP, hKI.em_nodup, hKI.em_sub,
        kahn_complete_of_empty ids depsOf key hKI σ hσc hσi hσt⟩
    | cons p rest =>
      obtain ⟨k0, c⟩ := p
      rw [show kahnLoop G key (f + 1) ((k0, c) :: rest) deg emitted =
          kahnLoop G key f (processDependents key (getList G c) rest deg).1
            (processDependents key (getList G c) rest deg).2 (emitted ++ [c])
          from rfl]
      have hstep := kahn_step ids depsOf key hids hdnodup G hG hKI
      have hTP' : TopoPrefix depsOf (emitted ++ [c]) :=
        topoPrefix_append hTP
          (remCount_zero_iff.mp (hKI.q_ready (k0, c) (by simp)))
      have hfuel' : kahnFuel (processDependents key (getList G c) rest deg).1
          (processDependents key (getList G c) rest deg).2 ≤ f := by
        have h1 := processDependents_fuel key (getList G c) rest deg
        have h2 : kahnFuel ((k0, c) :: rest) deg = kahnFuel rest deg + 1 := by
          unfold kahnFuel
          simp only [List.length_cons]
          omega
        omega
      have := ih (emitted ++ [c]) _ _ hstep hTP' hfuel'
      refine ⟨this.1, this.2.1, this.2.2.1, this.2.2.2⟩

theorem alookup_tasksMap_mem : ∀ {ts : List Task} {t : Task}, t ∈ ts →
    (taskIds ts).Nodup → alookup (ts.map (fun t => (t.id, t))) t.id = some t := by
  intro ts
  induction ts with
  | nil => intro t ht; simp at ht
  | cons u rest ih =>
    intro t ht hnd
    simp only [taskIds_cons, List.nodup_cons] at hnd
    rcases List.mem_cons.mp ht with rfl | ht
    · simp [alookup]
    · have hne : u.id ≠ t.id := by
        intro he
        exact hnd.1 (he ▸ List.mem_map.mpr ⟨t, ht, rfl⟩)
      simpa [alookup, hne] using ih ht hnd.2

theorem tasksMap_keys (ts : List Task) :
    (ts.map (fun t => (t.id, t))).map Prod.fst = taskIds ts := by
  simp [taskIds]

theorem alookup_tasksMap_none {ts : List Task} {i : Int} (h : i ∉ taskIds ts) :
    alookup (ts.map (fun t => (t.id, t))) i = none :=
  alookup_eq_none (by rwa [tasksMap_keys])

theorem depsOfTask_eq {ts : List Task} (hnd : (taskIds ts).Nodup) {t : Task}
    (ht : t ∈ ts) : depsOfTask ts t.id = t.dependencies := by
  unfold depsOfTask
  rw [alookup_tasksMap_mem ht hnd]
  rfl

theorem depsOfTask_nodup {ts : List Task} (hwf : WellFormed ts) :
    ∀ i ∈ taskIds ts, (depsOfTask ts i).Nodup := by
  intro i hi
  obtain ⟨t, ht, rfl⟩ := List.mem_map.mp hi
  rw [depsOfTask_eq hwf.1 ht]
  exact hwf.2.1 t ht

theorem revDeps_fold_no_match : ∀ (ts : List Task) (g : List (Int × List Int))
    (j : Int), (∀ t ∈ ts, t.id ≠ j) →
    getList (ts.foldl
      (fun g t => t.dependencies.foldl (fun g d => dappend g t.id d) g) g) j =
    getList g j := by
  intro ts
  induction ts with
  | nil => intro g j _; rfl
  | cons t rest ih =>
    intro g j h
    simp only [List.foldl_cons]
    rw [ih _ _ (fun u hu => h u (List.mem_cons_of_mem _ hu)),
      getList_foldl_dappend_fixed]
    simp [Ne.symm (h t (List.mem_cons_self _ _))]

theorem revDeps_fold_match : ∀ (ts : List Task) (g : List (Int × List Int))
    {t : Task}, t ∈ ts → (taskIds ts).Nodup →
    getList (ts.foldl
      (fun g t => t.dependencies.foldl (fun g d => dappend g t.id d) g) g) t.id =
    getList g t.id ++ t.dependencies := by
  intro ts
  induction ts with
  | nil => intro g t ht; simp at ht
  | cons u rest ih =>
    intro g t ht hnd
    simp only [taskIds_cons, List.nodup_cons] at hnd
    simp only [List.foldl_cons]
    rcases List.mem_cons.mp ht with rfl | ht
    · have hnomatch : ∀ v ∈ rest, v.id ≠ t.id := by
        intro v hv he
        exact hnd.1 (he ▸ List.mem_map.mpr ⟨v, hv, rfl⟩)
      rw [revDeps_fold_no_match rest _ _ hnomatch, getList_foldl_dappend_fixed]
      simp
    · have hne : u.id ≠ t.id := by
        intro he
        exact hnd.1 (he ▸ List.mem_map.mpr ⟨t, ht, rfl⟩)
      rw [ih _ ht hnd.2, getList_foldl_dappend_fixed]
      simp [Ne.symm hne]

theorem graph_fold : ∀ (ts : List Task) (g : List (Int × List Int)) (j : Int),
    (∀ t ∈ ts, t.dependencies.Nodup) →
    getList (ts.foldl
      (fun g t => t.dependencies.foldl (fun g d => dappend g d t.id) g) g) j =
    getList g j ++ (ts.filter (fun t => decide (j ∈ t.dependencies))).map Task.id := by
  intro ts
  induction ts with
  | nil => intro g j _; simp
  | cons t rest ih =>
    intro g j h
    simp only [List.foldl_cons]
    rw [ih _ _ (fun u hu => h u (List.mem_cons_of_mem _ hu)),
      getList_foldl_dappend_var]
    by_cases hj : j ∈ t.dependencies
    · rw [List.count_eq_one_of_mem (h t (List.mem_cons_self _ _)) hj]
      simp [List.filter_cons, hj]
    · rw [List.count_eq_zero_of_not_mem hj]
      simp [List.filter_cons, hj]

theorem filter_map_exchange (ts : List Task) (hnd : (taskIds ts).Nodup) (j : Int) :
    (ts.filter (fun t => decide (j ∈ t.dependencies))).map Task.id =
    (taskIds ts).filter (fun i => decide (j ∈ depsOfTask ts i)) := by
  have h1 : ts.filter (fun t => decide (j ∈ t.dependencies)) =
      ts.filter (fun t => decide (j ∈ depsOfTask ts t.id)) := by
    apply List.filter_congr
    intro t ht
    rw [depsOfTask_eq hnd ht]
  rw [h1, taskIds, List.filter_map]
  rfl

theorem foldl_aset_fresh_generic {β : Type} (f : Int → β) :
    ∀ (keys : List Int) (m : List (Int × β)), keys.Nodup →
    (∀ k ∈ keys, k ∉ m.map Prod.fst) →
    keys.foldl (fun m k => aset m k (f k)) m = m ++ keys.map (fun k => (k, f k)) := by
  intro keys
  induction keys with
  | nil => intro m _ _; simp
  | cons k rest ih =>
    intro m hnd hm
    simp only [List.nodup_cons] at hnd
    simp only [List.foldl_cons]
    rw [aset_keys_of_not_mem (hm k (List.mem_cons_self _ _)), ih _ hnd.2 ?_]
    · simp
    · intro u hu
      simp only [List.map_append, List.mem_append]
      push_neg
      refine ⟨hm u (List.mem_cons_of_mem _ hu), ?_⟩
      simp only [List.map_cons, List.map_nil, List.mem_singleton]
      intro he
      exact hnd.1 (he ▸ hu)

theorem alookup_map_graph {β : Type} (f : Int → β) :
    ∀ (keys : List Int) (i : Int),
    alookup (keys.map (fun k => (k, f k))) i =
      if i ∈ keys then some (f i) else none := by
  intro keys
  induction keys with
  | nil => intro i; simp [alookup]
  | cons k rest ih =>
    intro i
    by_cases hk : k = i
    · subst hk
      simp [alookup]
    · simp only [List.map_cons, alookup, hk, if_false]
      rw [ih]
      simp [List.mem_cons, Ne.symm hk]

theorem seedQueue_mem_aux (key : Int → Int) :
    ∀ (l : List (Int × Int)) (q0 : List (Int × Int)) (p : Int × Int),
    p ∈ l.foldl (fun q r => if r.2 = 0 then qinsert (key r.1, r.1) q else q) q0 ↔
    p ∈ q0 ∨ ∃ i, (i, (0 : Int)) ∈ l ∧ p = (key i, i) := by
  intro l
  induction l with
  | nil => intro q0 p; simp
  | cons r rest ih =>
    intro q0 p
    simp only [List.foldl_cons]
    by_cases hr : r.2 = 0
    · simp only [hr, if_true]
      rw [ih]
      constructor
      · intro h
        rcases h with h | ⟨i, hi, rfl⟩
        · rcases mem_qinsert.mp h with rfl | h
          · exact Or.inr ⟨r.1, by simp [← hr], rfl⟩
          · exact Or.inl h
        · exact Or.inr ⟨i, List.mem_cons_of_mem _ hi, rfl⟩
      · intro h
        rcases h with h | ⟨i, hi, rfl⟩
        · exact Or.inl (mem_qinsert.mpr (Or.inr h))
        · rcases List.mem_cons.mp hi with he | hi
          · refine Or.inl (mem_qinsert.mpr (Or.inl ?_))
            rw [show i = r.1 from congrArg Prod.fst he]
          · exact Or.inr ⟨i, hi, rfl⟩
    · simp only [hr, if_false]
      rw [ih]
      constructor
      · intro h
        rcases h with h | ⟨i, hi, rfl⟩
        · exact Or.inl h
        · exact Or.inr ⟨i, List.mem_cons_of_mem _ hi, rfl⟩
      · intro h
        rcases h with h | ⟨i, hi, rfl⟩
        · exact Or.inl h
        · rcases List.mem_cons.mp hi with he | hi
          · exact absurd (congrArg Prod.snd he).symm hr
          · exact Or.inr ⟨i, hi, rfl⟩

theorem seedQueue_mem_iff (deg : List (Int × Int)) (key : Int → Int)
    (p : Int × Int) :
    p ∈ seedQueue deg key ↔ ∃ i, (i, (0 : Int)) ∈ deg ∧ p = (key i, i) := by
  unfold seedQueue
  rw [seedQueue_mem_aux]
  simp

theorem seedQueue_snd_perm (key : Int → Int) :
    ∀ (l : List (Int × Int)) (q0 : List (Int × Int)),
    List.Perm
      ((l.foldl (fun q r => if r.2 = 0 then qinsert (key r.1, r.1) q else q) q0).map
        Prod.snd)
      (q0.map Prod.snd ++ (l.filter (fun r => r.2 = 0)).map Prod.fst) := by
  intro l
  induction l with
  | nil => intro q0; simp
  | cons r rest ih =>
    intro q0
    simp only [List.foldl_cons]
    by_cases hr : r.2 = 0
    · simp only [hr, if_true, List.filter_cons, decide_eq_true_eq]
      have h1 := ih (qinsert (key r.1, r.1) q0)
      have h2 : List.Perm ((qinsert (key r.1, r.1) q0).map Prod.snd)
          (r.1 :: q0.map Prod.snd) := qinsert_map_snd_perm _ _
      refine h1.trans ?_
      refine (h2.append_right _).trans ?_
      simp only [List.map_cons]
      exact (List.perm_middle).symm.trans (by simp)
    · simp only [hr, if_false, List.filter_cons, decide_eq_true_eq]
      exact ih q0

theorem seedQueue_snd_nodup {deg : List (Int × Int)} (key : Int → Int)
    (hnd : (deg.map Prod.fst).Nodup) :
    ((seedQueue deg key).map Prod.snd).Nodup := by
  have hperm := seedQueue_snd_perm key deg []
  unfold seedQueue
  rw [hperm.nodup_iff]
  simp only [List.map_nil, List.nil_append]
  exact ((List.filter_sublist deg).map Prod.fst).nodup hnd

theorem remCount_nil (depsOf : Int → List Int) (i : Int) :
    remCount depsOf [] i = (depsOf i).length := by
  unfold remCount
  simp

theorem topoPrefix_nil (depsOf : Int → List Int) : TopoPrefix depsOf [] := by
  intro k
  exact absurd k.2 (Nat.not_lt_zero _)

theorem kahnLoop_nil (G : List (Int × List Int)) (key : Int → Int)
    (fuel : Nat) (deg : List (Int × Int)) (emitted : List Int) :
    kahnLoop G key fuel [] deg emitted = emitted := by
  cases fuel with
  | zero => rfl
  | succ f => rfl

theorem processDependents_append (key : Int → Int) :
    ∀ (L₁ L₂ : List Int) (q deg : List (Int × Int)),
    processDependents key (L₁ ++ L₂) q deg =
      processDependents key L₂ (processDependents key L₁ q deg).1
        (processDependents key L₁ q deg).2 := by
  intro L₁
  induction L₁ with
  | nil => intro L₂ q deg; rfl
  | cons d ds ih =>
    intro L₂ q deg
    simp only [List.cons_append]
    rw [show processDependents key (d :: (ds ++ L₂)) q deg =
        processDependents key (ds ++ L₂)
          (if (alookup deg d).getD 0 - 1 = 0 then qinsert (key d, d) q else q)
          (aset deg d ((alookup deg d).getD 0 - 1)) from rfl,
      show processDependents key (d :: ds) q deg =
        processDependents key ds
          (if (alookup deg d).getD 0 - 1 = 0 then qinsert (key d, d) q else q)
          (aset deg d ((alookup deg d).getD 0 - 1)) from rfl]
    exact ih L₂ _ _

theorem foldl_aset_keys_pres : ∀ (ts : List Task) (m : List (Int × Task)),
    (∀ t ∈ ts, t.id ∈ m.map Prod.fst) →
    (ts.foldl (fun m t => aset m t.id t) m).map Prod.fst = m.map Prod.fst := by
  intro ts
  induction ts with
  | nil => intro m _; rfl
  | cons t rest ih =>
    intro m h
    have hkeys : (aset m t.id t).map Prod.fst = m.map Prod.fst :=
      aset_keys_of_mem (h t (List.mem_cons_self _ _)) t
    simp only [List.foldl_cons]
    refine (ih (aset m t.id t) ?_).trans hkeys
    intro u hu
    rw [hkeys]
    exact h u (List.mem_cons_of_mem _ hu)

/-- Re-registering a full task set over a store that already holds exactly
those keys (`self.tasks[t.id] = t` for each task of a repeated
`find_minimum_workers` call) overwrites every entry, giving the same store
a fresh registration would. -/
theorem foldl_aset_overwrite {ts : List Task} (hnd : (taskIds ts).Nodup)
    (m : List (Int × Task)) (hk : m.map Prod.fst = taskIds ts) :
    ts.foldl (fun m t => aset m t.id t) m = ts.map (fun t => (t.id, t)) := by
  have hkeys : (ts.foldl (fun m t => aset m t.id t) m).map Prod.fst =
      taskIds ts := by
    rw [foldl_aset_keys_pres ts m ?_, hk]
    intro t ht
    rw [hk]
    exact List.mem_map.mpr ⟨t, ht, rfl⟩
  apply assoc_ext (hkeys.trans (tasksMap_keys ts).symm)
    (by rw [hkeys]; exact hnd)
  intro k
  by_cases hkmem : k ∈ taskIds ts
  · obtain ⟨t, ht, rfl⟩ := List.mem_map.mp hkmem
    rw [foldl_aset_tasks_mem ht hnd m, alookup_tasksMap_mem ht hnd]
  · have hne : ∀ t ∈ ts, t.id ≠ k := by
      intro t ht he
      exact hkmem (he ▸ List.mem_map.mpr ⟨t, ht, rfl⟩)
    rw [foldl_aset_tasks_not_mem hne m, alookup_tasksMap_none hkmem,
      alookup_eq_none (by rw [hk]; exact hkmem)]

/-- The in-degree initialisation of `_get_topologically_sorted_tasks`, for
any reverse-dependency store `rv`. -/
theorem degInit_eq (ts : List Task) (hnd : (taskIds ts).Nodup)
    (rv : List (Int × List Int)) :
    (ts.map (fun t => (t.id, t))).foldl
      (fun m p => aset m p.1 ((getList rv p.1).length : Int)) [] =
    (taskIds ts).map (fun i => (i, ((getList rv i).length : Int))) := by
  rw [List.foldl_map]
  show List.foldl (fun m t => aset m t.id ((getList rv t.id).length : Int))
    [] ts = _
  rw [← List.foldl_map Task.id
    (fun m k => aset m k ((getList rv k).length : Int)) ts []]
  rw [foldl_aset_fresh_generic (fun i => ((getList rv i).length : Int))
    (List.map Task.id ts) [] (by simpa [taskIds] using hnd) (by simp)]
  simp [taskIds]

theorem seedQueue_fold_congr (key : Int → Int) :
    ∀ (l : List Int) (f g : Int → Int) (q : List (Int × Int)),
    (∀ i ∈ l, (f i = 0 ↔ g i = 0)) →
    (l.map (fun i => (i, f i))).foldl
      (fun q p => if p.2 = 0 then qinsert (key p.1, p.1) q else q) q =
    (l.map (fun i => (i, g i))).foldl
      (fun q p => if p.2 = 0 then qinsert (key p.1, p.1) q else q) q := by
  intro l
  induction l with
  | nil => intro f g q _; rfl
  | cons i rest ih =>
    intro f g q h
    have hstepf : ((i :: rest).map (fun i => (i, f i))).foldl
        (fun q p => if p.2 = 0 then qinsert (key p.1, p.1) q else q) q =
      (rest.map (fun i => (i, f i))).foldl
        (fun q p => if p.2 = 0 then qinsert (key p.1, p.1) q else q)
        (if f i = 0 then qinsert (key i, i) q else q) := rfl
    have hstepg : ((i :: rest).map (fun i => (i, g i))).foldl
        (fun q p => if p.2 = 0 then qinsert (key p.1, p.1) q else q) q =
      (rest.map (fun i => (i, g i))).foldl
        (fun q p => if p.2 = 0 then qinsert (key p.1, p.1) q else q)
        (if g i = 0 then qinsert (key i, i) q else q) := rfl
    rw [hstepf, hstepg]
    have hiff := h i (List.mem_cons_self _ _)
    by_cases hf : f i = 0
    · rw [if_pos hf, if_pos (hiff.mp hf)]
      exact ih f g _ (fun j hj => h j (List.mem_cons_of_mem _ hj))
    · rw [if_neg hf, if_neg (fun hg => hf (hiff.mpr hg))]
      exact ih f g _ (fun j hj => h j (List.mem_cons_of_mem _ hj))

/-- Two in-degree maps with the same key order seed identical ready queues
as soon as their entries agree on *which* degrees are zero. -/
theorem seedQueue_congr (key : Int → Int) (l : List Int) (f g : Int → Int)
    (h : ∀ i ∈ l, (f i = 0 ↔ g i = 0)) :
    seedQueue (l.map (fun i => (i, f i))) key =
      seedQueue (l.map (fun i => (i, g i))) key :=
  seedQueue_fold_congr key l f g [] h

theorem revDeps_getList_addAll {ts : List Task} (hnd : (taskIds ts).Nodup)
    {t : Task} (ht : t ∈ ts) (st : CState) :
    getList (addAll st ts).revDeps t.id =
      getList st.revDeps t.id ++ t.dependencies := by
  rw [addAll_revDeps_fold]
  exact revDeps_fold_match ts st.revDeps ht hnd

theorem revDeps_getList_fresh {ts : List Task} (hnd : (taskIds ts).Nodup)
    {t : Task} (ht : t ∈ ts) :
    getList (addAll freshCState ts).revDeps t.id = t.dependencies := by
  rw [revDeps_getList_addAll hnd ht freshCState]
  rfl

theorem depGraph_getList_fresh (ts : List Task) (hnd : (taskIds ts).Nodup)
    (hdnd : ∀ t ∈ ts, t.dependencies.Nodup) (j : Int) :
    getList (addAll freshCState ts).depGraph j =
      (taskIds ts).filter (fun i => decide (j ∈ depsOfTask ts i)) := by
  rw [addAll_depGraph_fold, graph_fold ts _ j hdnd,
    ← filter_map_exchange ts hnd j]
  rfl

/-- The topological sort of any state whose task store holds exactly the
tasks `ts` (in registration order), spelled out to its Kahn-loop normal
form. -/
theorem gts_unfold (st : CState) (ts : List Task) (hnd : (taskIds ts).Nodup)
    (hT : st.tasks = ts.map (fun t => (t.id, t))) :
    get_topologically_sorted_tasks st =
      kahnLoop st.depGraph (cKey st)
        (kahnFuel (seedQueue ((taskIds ts).map (fun i =>
            (i, ((getList st.revDeps i).length : Int)))) (cKey st))
          ((taskIds ts).map (fun i =>
            (i, ((getList st.revDeps i).length : Int)))))
        (seedQueue ((taskIds ts).map (fun i =>
            (i, ((getList st.revDeps i).length : Int)))) (cKey st))
        ((taskIds ts).map (fun i =>
          (i, ((getList st.revDeps i).length : Int)))) [] := by
  unfold get_topologically_sorted_tasks
  rw [hT, degInit_eq ts hnd st.revDeps]

/-- The Kahn-loop invariant holds at the loop entry of
`_get_topologically_sorted_tasks` on a freshly registered well-formed task
set. -/
theorem kinv_init (ts : List Task) (hwf : WellFormed ts) :
    KInv (taskIds ts) (depsOfTask ts) (cKey (addAll freshCState ts)) []
      (seedQueue ((taskIds ts).map (fun i =>
        (i, ((getList (addAll freshCState ts).revDeps i).length : Int))))
        (cKey (addAll freshCState ts)))
      ((taskIds ts).map (fun i =>
        (i, ((getList (addAll freshCState ts).revDeps i).length : Int)))) := by
  have hnd := hwf.1
  have hrev : ∀ i ∈ taskIds ts,
      getList (addAll freshCState ts).revDeps i = depsOfTask ts i := by
    intro i hi
    obtain ⟨t, ht, rfl⟩ := List.mem_map.mp hi
    rw [revDeps_getList_fresh hnd ht, depsOfTask_eq hnd ht]
  constructor
  · exact List.nodup_nil
  · intro i hi; simp at hi
  · intro i hi; simp at hi
  · intro p hp
    obtain ⟨i, hiD, rfl⟩ := (seedQueue_mem_iff _ _ _).mp hp
    obtain ⟨k, hk, hke⟩ := List.mem_map.mp hiD
    have hki : k = i := congrArg Prod.fst hke
    subst hki
    exact ⟨hk, rfl, by simp⟩
  · apply seedQueue_snd_nodup
    have he : (((taskIds ts).map (fun i =>
        (i, ((getList (addAll freshCState ts).revDeps i).length : Int)))).map
        Prod.fst) = taskIds ts := by
      rw [List.map_map]
      have hco : (Prod.fst ∘ fun i : Int =>
          (i, ((getList (addAll freshCState ts).revDeps i).length : Int))) =
          id := by
        funext x
        rfl
      rw [hco, List.map_id]
    rw [he]
    exact hnd
  · intro p hp
    obtain ⟨i, hiD, rfl⟩ := (seedQueue_mem_iff _ _ _).mp hp
    obtain ⟨k, hk, hke⟩ := List.mem_map.mp hiD
    have hki : k = i := congrArg Prod.fst hke
    subst hki
    have hv : ((getList (addAll freshCState ts).revDeps k).length : Int) = 0 :=
      congrArg Prod.snd hke
    show remCount (depsOfTask ts) [] k = 0
    rw [remCount_nil]
    rw [hrev k hk] at hv
    omega
  · intro i hi
    rw [alookup_map_graph, if_pos hi, remCount_nil, hrev i hi]
  · intro i hi _ hrc
    rw [remCount_nil] at hrc
    have hv : ((getList (addAll freshCState ts).revDeps i).length : Int) = 0 := by
      rw [hrev i hi]
      omega
    refine List.mem_map.mpr ⟨(cKey (addAll freshCState ts) i, i), ?_, rfl⟩
    apply (seedQueue_mem_iff _ _ _).mpr
    refine ⟨i, ?_, rfl⟩
    rw [show ((i, (0 : Int))) = (i, ((getList
      (addAll freshCState ts).revDeps i).length : Int)) from by rw [hv]]
    exact List.mem_map.mpr ⟨i, hi, rfl⟩

/-- First pass over a dependents list whose in-degree entries are doubled:
every decrement lands on a value `≥ 1`, so nothing is pushed and the queue
comes back unchanged; each processed entry just loses one unit. -/
theorem pd_first_pass
    (ids : List Int) (depsOf : Int → List Int) (key : Int → Int)
    (emitted : List Int) :
    ∀ (S P : List Int) (q deg : List (Int × Int)),
    (P ++ S).Nodup →
    (∀ i ∈ P ++ S, i ∈ ids ∧ 1 ≤ remCount depsOf emitted i) →
    (∀ i ∈ ids, alookup deg i =
      some (2 * (remCount depsOf emitted i : Int) - (if i ∈ P then 1 else 0))) →
    (processDependents key S q deg).1 = q ∧
    (∀ i ∈ ids, alookup (processDependents key S q deg).2 i =
      some (2 * (remCount depsOf emitted i : Int) -
        (if i ∈ P ++ S then 1 else 0))) := by
  intro S
  induction S with
  | nil =>
    intro P q deg _ _ hdeg
    refine ⟨rfl, ?_⟩
    intro i hi
    simpa using hdeg i hi
  | cons d S' ih =>
    intro P q deg hnd hmem hdeg
    have hdm := hmem d (by simp)
    have hdP : d ∉ P := by
      intro hdP
      exact (List.disjoint_of_nodup_append hnd) hdP (by simp)
    have hlook : alookup deg d =
        some (2 * (remCount depsOf emitted d : Int)) := by
      have := hdeg d hdm.1
      simpa [hdP] using this
    have hgetD : (alookup deg d).getD 0 =
        2 * (remCount depsOf emitted d : Int) := by
      rw [hlook]
      rfl
    have hne : (alookup deg d).getD 0 - 1 ≠ 0 := by
      rw [hgetD]
      have := hdm.2
      omega
    rw [show processDependents key (d :: S') q deg = processDependents key S'
        (if (alookup deg d).getD 0 - 1 = 0 then qinsert (key d, d) q else q)
        (aset deg d ((alookup deg d).getD 0 - 1)) from rfl]
    rw [if_neg hne]
    have happ : P ++ d :: S' = (P ++ [d]) ++ S' := by simp
    rw [happ]
    refine ih (P ++ [d]) q _ (by rw [← happ]; exact hnd)
      (by rw [← happ]; exact hmem) ?_
    intro i hi
    by_cases hid : i = d
    · subst hid
      rw [alookup_aset_self, hgetD]
      simp
    · rw [alookup_aset_ne _ (fun h => hid h.symm), hdeg i hi]
      simp [List.mem_append, hid]

/-- Second pass over the same dependents list, run in lock-step with the
single pass of a reference run whose in-degrees are the true remaining
counts: both decrement the same entry, reach zero at exactly the same
moment, and hence push the same pair — the two queues stay equal. -/
theorem pd_second_pass
    (ids : List Int) (depsOf : Int → List Int) (key : Int → Int)
    (emitted L : List Int)
    (hLm : ∀ i ∈ L, i ∈ ids ∧ 1 ≤ remCount depsOf emitted i) :
    ∀ (S P : List Int) (q deg₁ deg₂ : List (Int × Int)),
    L = P ++ S → L.Nodup →
    (∀ i ∈ ids, alookup deg₁ i =
      some ((remCount depsOf emitted i : Int) - (if i ∈ P then 1 else 0))) →
    (∀ i ∈ ids, alookup deg₂ i =
      some (2 * (remCount depsOf emitted i : Int) - (if i ∈ L then 1 else 0)
        - (if i ∈ P then 1 else 0))) →
    (processDependents key S q deg₂).1 = (processDependents key S q deg₁).1 ∧
    (∀ i ∈ ids, alookup (processDependents key S q deg₂).2 i =
      some (2 * (remCount depsOf emitted i : Int) - (if i ∈ L then 1 else 0)
        - (if i ∈ P ++ S then 1 else 0))) := by
  intro S
  induction S with
  | nil =>
    intro P q deg₁ deg₂ hL hnd h1 h2
    refine ⟨rfl, ?_⟩
    intro i hi
    simpa using h2 i hi
  | cons d S' ih =>
    intro P q deg₁ deg₂ hL hnd h1 h2
    have hdL : d ∈ L := by rw [hL]; simp
    have hdm := hLm d hdL
    have hndPS : (P ++ d :: S').Nodup := hL ▸ hnd
    have hdP : d ∉ P := by
      intro hdP
      exact (List.disjoint_of_nodup_append hndPS) hdP (by simp)
    have hlook1 : alookup deg₁ d =
        some ((remCount depsOf emitted d : Int)) := by
      have := h1 d hdm.1
      simpa [hdP] using this
    have hget1 : (alookup deg₁ d).getD 0 =
        (remCount depsOf emitted d : Int) := by
      rw [hlook1]
      rfl
    have hlook2 : alookup deg₂ d =
        some (2 * (remCount depsOf emitted d : Int) - 1) := by
      have := h2 d hdm.1
      simpa [hdL, hdP] using this
    have hget2 : (alookup deg₂ d).getD 0 =
        2 * (remCount depsOf emitted d : Int) - 1 := by
      rw [hlook2]
      rfl
    have hcond : ((alookup deg₂ d).getD 0 - 1 = 0) ↔
        ((alookup deg₁ d).getD 0 - 1 = 0) := by
      rw [hget1, hget2]
      have := hdm.2
      omega
    rw [show processDependents key (d :: S') q deg₂ = processDependents key S'
        (if (alookup deg₂ d).getD 0 - 1 = 0 then qinsert (key d, d) q else q)
        (aset deg₂ d ((alookup deg₂ d).getD 0 - 1)) from rfl,
      show processDependents key (d :: S') q deg₁ = processDependents key S'
        (if (alookup deg₁ d).getD 0 - 1 = 0 then qinsert (key d, d) q else q)
        (aset deg₁ d ((alookup deg₁ d).getD 0 - 1)) from rfl]
    have hq : (if (alookup deg₂ d).getD 0 - 1 = 0
          then qinsert (key d, d) q else q) =
        (if (alookup deg₁ d).getD 0 - 1 = 0
          then qinsert (key d, d) q else q) := by
      by_cases hc : (alookup deg₁ d).getD 0 - 1 = 0
      · rw [if_pos hc, if_pos (hcond.mpr hc)]
      · rw [if_neg hc, if_neg (fun h => hc (hcond.mp h))]
    rw [hq]
    have happ : P ++ d :: S' = (P ++ [d]) ++ S' := by simp
    rw [happ]
    refine ih (P ++ [d]) _ _ _ (by rw [hL]; simp) hnd ?_ ?_
    · intro i hi
      by_cases hid : i = d
      · subst hid
        rw [alookup_aset_self, hget1]
        simp
      · rw [alookup_aset_ne _ (fun h => hid h.symm), h1 i hi]
        simp [List.mem_append, hid]
    · intro i hi
      by_cases hid : i = d
      · subst hid
        rw [alookup_aset_self, hget2]
        simp [List.mem_append, hdL]
      · rw [alookup_aset_ne _ (fun h => hid h.symm), h2 i hi]
        simp [List.mem_append, hid]

/-- Bisimulation of Kahn's loop between a run on the true dependency graph
and a run on the same graph with every adjacency list doubled (the state a
second `find_minimum_workers` call on the same instance sees) and every
in-degree doubled: the two runs pop and emit identical sequences. -/
theorem kahn_doubled
    (ids : List Int) (depsOf : Int → List Int) (key : Int → Int)
    (hids : ids.Nodup) (hdnodup : ∀ i ∈ ids, (depsOf i).Nodup)
    (G₁ G₂ : List (Int × List Int))
    (hG₁ : ∀ j, getList G₁ j = ids.filter (fun i => decide (j ∈ depsOf i)))
    (hG₂ : ∀ j, getList G₂ j = getList G₁ j ++ getList G₁ j) :
    ∀ (fuel₁ fuel₂ : Nat) (emitted : List Int)
      (queue deg₁ deg₂ : List (Int × Int)),
    KInv ids depsOf key emitted queue deg₁ →
    (∀ i ∈ ids, alookup deg₂ i =
      some (2 * (remCount depsOf emitted i : Int))) →
    kahnFuel queue deg₁ ≤ fuel₁ → kahnFuel queue deg₂ ≤ fuel₂ →
    kahnLoop G₂ key fuel₂ queue deg₂ emitted =
      kahnLoop G₁ key fuel₁ queue deg₁ emitted := by
  intro fuel₁
  induction fuel₁ with
  | zero =>
    intro fuel₂ emitted queue deg₁ deg₂ hKI hdbl hf₁ hf₂
    have hq : queue = [] := by
      have : queue.length = 0 := by
        unfold kahnFuel at hf₁
        omega
      exact List.length_eq_zero.mp this
    subst hq
    rw [kahnLoop_nil, kahnLoop_nil]
  | succ f₁ ih =>
    intro fuel₂ emitted queue deg₁ deg₂ hKI hdbl hf₁ hf₂
    cases queue with
    | nil => rw [kahnLoop_nil, kahnLoop_nil]
    | cons p rest =>
      obtain ⟨k0, c⟩ := p
      cases fuel₂ with
      | zero =>
        exfalso
        unfold kahnFuel at hf₂
        simp only [List.length_cons] at hf₂
        omega
      | succ f₂ =>
        obtain ⟨hcid, hkey0, hcne⟩ := hKI.q_mem (k0, c) (by simp)
        have hLnodup : (getList G₁ c).Nodup := by
          rw [hG₁ c]
          exact hids.filter _
        have hLmem : ∀ i, i ∈ getList G₁ c ↔ i ∈ ids ∧ c ∈ depsOf i := by
          intro i
          rw [hG₁ c, List.mem_filter]
          simp
        have hLm : ∀ i ∈ getList G₁ c,
            i ∈ ids ∧ 1 ≤ remCount depsOf emitted i := by
          intro i hi
          have h := (hLmem i).mp hi
          exact ⟨h.1, remCount_pos h.2 hcne⟩
        rw [show kahnLoop G₁ key (f₁ + 1) ((k0, c) :: rest) deg₁ emitted =
            kahnLoop G₁ key f₁
              (processDependents key (getList G₁ c) rest deg₁).1
              (processDependents key (getList G₁ c) rest deg₁).2
              (emitted ++ [c]) from rfl,
          show kahnLoop G₂ key (f₂ + 1) ((k0, c) :: rest) deg₂ emitted =
            kahnLoop G₂ key f₂
              (processDependents key (getList G₂ c) rest deg₂).1
              (processDependents key (getList G₂ c) rest deg₂).2
              (emitted ++ [c]) from rfl]
        have hfb₂ : kahnFuel
            (processDependents key (getList G₂ c) rest deg₂).1
            (processDependents key (getList G₂ c) rest deg₂).2 ≤ f₂ := by
          have ha := processDependents_fuel key (getList G₂ c) rest deg₂
          have hb : kahnFuel ((k0, c) :: rest) deg₂ =
              kahnFuel rest deg₂ + 1 := by
            unfold kahnFuel
            simp only [List.length_cons]
            omega
          omega
        have hfb₁ : kahnFuel
            (processDependents key (getList G₁ c) rest deg₁).1
            (processDependents key (getList G₁ c) rest deg₁).2 ≤ f₁ := by
          have ha := processDependents_fuel key (getList G₁ c) rest deg₁
          have hb : kahnFuel ((k0, c) :: rest) deg₁ =
              kahnFuel rest deg₁ + 1 := by
            unfold kahnFuel
            simp only [List.length_cons]
            omega
          omega
        have hfp := pd_first_pass ids depsOf key emitted (getList G₁ c) []
          rest deg₂ (by simpa using hLnodup) (by simpa using hLm)
          (by intro i hi; simpa using hdbl i hi)
        have hsplit : processDependents key (getList G₂ c) rest deg₂ =
            processDependents key (getList G₁ c) rest
              (processDependents key (getList G₁ c) rest deg₂).2 := by
          rw [hG₂ c, processDependents_append, hfp.1]
        have hsp := pd_second_pass ids depsOf key emitted (getList G₁ c) hLm
          (getList G₁ c) [] rest deg₁
          (processDependents key (getList G₁ c) rest deg₂).2
          (by simp) hLnodup
          (by intro i hi; simpa using hKI.deg_val i hi)
          (by intro i hi; simpa using hfp.2 i hi)
        have hdbl' : ∀ i ∈ ids,
            alookup (processDependents key (getList G₁ c) rest
              (processDependents key (getList G₁ c) rest deg₂).2).2 i =
            some (2 * (remCount depsOf (emitted ++ [c]) i : Int)) := by
          intro i hi
          have hv := hsp.2 i hi
          rw [hv]
          by_cases hiL : i ∈ getList G₁ c
          · have hdep := (hLmem i).mp hiL
            have hstep := @remCount_append_dep depsOf emitted i c
              (hdnodup i hi) hdep.2 hcne
            have hiLL : i ∈ ([] : List Int) ++ getList G₁ c := by
              simpa using hiL
            rw [if_pos hiL, if_pos hiLL]
            congr 1
            omega
          · have hnodep : c ∉ depsOf i :=
              fun hc => hiL ((hLmem i).mpr ⟨hi, hc⟩)
            have hiLL : i ∉ ([] : List Int) ++ getList G₁ c := by
              simpa using hiL
            rw [remCount_append_not_dep hnodep, if_neg hiL, if_neg hiLL]
            congr 1
        have hKI' := kahn_step ids depsOf key hids hdnodup G₁ hG₁ hKI
        rw [hsplit] at hfb₂ ⊢
        rw [hsp.1] at hfb₂ ⊢
        exact ih f₂ (emitted ++ [c])
          (processDependents key (getList G₁ c) rest deg₁).1
          (processDependents key (getList G₁ c) rest deg₁).2
          (processDependents key (getList G₁ c) rest
            (processDependents key (getList G₁ c) rest deg₂).2).2
          hKI' hdbl' hfb₁ hfb₂

/-- Everything `kahn_main` yields about the advanced scheduler's
topological sort on well-formed acyclic input: the emitted list respects
dependencies, has no duplicates, and covers exactly the task ids. -/
theorem topo_props (ts : List Task) (hwf : WellFormed ts) (hac : Acyclic ts) :
    TopoPrefix (depsOfTask ts)
      (get_topologically_sorted_tasks (addAll freshCState ts)) ∧
    (get_topologically_sorted_tasks (addAll freshCState ts)).Nodup ∧
    (∀ i ∈ get_topologically_sorted_tasks (addAll freshCState ts),
      i ∈ taskIds ts) ∧
    (∀ i ∈ taskIds ts,
      i ∈ get_topologically_sorted_tasks (addAll freshCState ts)) := by
  obtain ⟨hnd, hdnd, hsubids, hdur⟩ := hwf
  obtain ⟨σ, hσ⟩ := hac
  have hdnodup : ∀ i ∈ taskIds ts, (depsOfTask ts i).Nodup :=
    depsOfTask_nodup ⟨hnd, hdnd, hsubids, hdur⟩
  have hG : ∀ j, getList (addAll freshCState ts).depGraph j =
      (taskIds ts).filter (fun i => decide (j ∈ depsOfTask ts i)) := by
    intro j
    rw [addAll_depGraph_fold, graph_fold ts _ j hdnd,
      ← filter_map_exchange ts hnd j]
    rfl
  have hrev : ∀ i ∈ taskIds ts,
      getList (addAll freshCState ts).revDeps i = depsOfTask ts i := by
    intro i hi
    obtain ⟨t, ht, rfl⟩ := List.mem_map.mp hi
    rw [addAll_revDeps_fold, revDeps_fold_match ts _ ht hnd,
      depsOfTask_eq hnd ht]
    rfl
  have hdeg : (addAll freshCState ts).tasks.foldl
      (fun m p => aset m p.1
        ((getList (addAll freshCState ts).revDeps p.1).length : Int)) [] =
      (taskIds ts).map (fun i =>
        (i, ((getList (addAll freshCState ts).revDeps i).length : Int))) := by
    rw [addAll_tasks_of_fresh hnd, List.foldl_map]
    show List.foldl (fun m t => aset m t.id
      ((getList (addAll freshCState ts).revDeps t.id).length : Int)) [] ts =
      (taskIds ts).map (fun i =>
        (i, ((getList (addAll freshCState ts).revDeps i).length : Int)))
    rw [← List.foldl_map Task.id (fun m k => aset m k
      ((getList (addAll freshCState ts).revDeps k).length : Int)) ts []]
    rw [foldl_aset_fresh_generic
      (fun i => ((getList (addAll freshCState ts).revDeps i).length : Int))
      (List.map Task.id ts) [] (by simpa [taskIds] using hnd) (by simp)]
    simp [taskIds]
  have hKI0 := kinv_init ts ⟨hnd, hdnd, hsubids, hdur⟩
  have hσt : TopoPrefix (depsOfTask ts) σ := by
    intro k d hd
    have hmem : σ.get k ∈ taskIds ts := hσ.2.1 _ (σ.get_mem _ _)
    obtain ⟨t, ht, htid⟩ := List.mem_map.mp hmem
    rw [← htid, depsOfTask_eq hnd ht] at hd
    exact hσ.2.2.2 k t ht htid d hd
  have hmain := kahn_main (addAll freshCState ts).depGraph
    (cKey (addAll freshCState ts)) (taskIds ts) (depsOfTask ts) hnd hdnodup hG
    σ hσ.2.2.1 hσ.2.1 hσt
    (kahnFuel (seedQueue ((taskIds ts).map (fun i =>
        (i, ((getList (addAll freshCState ts).revDeps i).length : Int))))
        (cKey (addAll freshCState ts)))
      ((taskIds ts).map (fun i =>
        (i, ((getList (addAll freshCState ts).revDeps i).length : Int)))))
    [] _ _ hKI0 (topoPrefix_nil _) (le_refl _)
  have hunfold : get_topologically_sorted_tasks (addAll freshCState ts) =
      kahnLoop (addAll freshCState ts).depGraph (cKey (addAll freshCState ts))
        (kahnFuel (seedQueue ((taskIds ts).map (fun i =>
            (i, ((getList (addAll freshCState ts).revDeps i).length : Int))))
            (cKey (addAll freshCState ts)))
          ((taskIds ts).map (fun i =>
            (i, ((getList (addAll freshCState ts).revDeps i).length : Int)))))
        (seedQueue ((taskIds ts).map (fun i =>
            (i, ((getList (addAll freshCState ts).revDeps i).length : Int))))
          (cKey (addAll freshCState ts)))
        ((taskIds ts).map (fun i =>
          (i, ((getList (addAll freshCState ts).revDeps i).length : Int)))) [] := by
    unfold get_topologically_sorted_tasks
    rw [hdeg]
  rw [hunfold]
  exact hmain

theorem alookup_mem {β : Type} : ∀ {l : List (Int × β)} {k : Int} {v : β},
    alookup l k = some v → (k, v) ∈ l := by
  intro l
  induction l with
  | nil => intro k v h; simp [alookup] at h
  | cons p rest ih =>
    intro k v h
    by_cases hp : p.1 = k
    · rw [show alookup (p :: rest) k = some p.2 from by simp [alookup, hp]] at h
      injection h with h
      subst h
      subst hp
      simp
    · rw [show alookup (p :: rest) k = alookup rest k from by
        simp [alookup, hp]] at h
      exact List.mem_cons_of_mem _ (ih h)

theorem alookup_tasksMap_inv : ∀ {ts : List Task} {i : Int} {t : Task},
    alookup (ts.map (fun t => (t.id, t))) i = some t → t ∈ ts ∧ t.id = i := by
  intro ts
  induction ts with
  | nil => intro i t h; simp [alookup] at h
  | cons u rest ih =>
    intro i t h
    by_cases hu : u.id = i
    · rw [show alookup ((u :: rest).map (fun t => (t.id, t))) i = some u from by
        simp [alookup, hu]] at h
      injection h with h
      subst h
      exact ⟨by simp, hu⟩
    · rw [show alookup ((u :: rest).map (fun t => (t.id, t))) i =
          alookup (rest.map (fun t => (t.id, t))) i from by
        simp [alookup, hu]] at h
      obtain ⟨h1, h2⟩ := ih h
      exact ⟨List.mem_cons_of_mem _ h1, h2⟩

theorem wtask_not_overlap {t u : Task} (ht : WTask t) (hu : WTask u)
    (hle : t.end_time ≤ u.start_time) : ¬ taskOverlap t u := by
  rintro ⟨x, hx1, hx2⟩
  rcases ht.1 with h | h <;> rw [h] at hx1
  · exact hx1
  · rcases hu.1 with h' | h' <;> rw [h'] at hx2
    · exact hx2
    · obtain ⟨ha1, ha2⟩ := hx1
      obtain ⟨hb1, hb2⟩ := hx2
      have hd : t.start_time + t.duration = t.end_time := by
        unfold Task.duration
        ring
      omega

theorem wchain_head_le : ∀ (l : List Task) (t : Task), WChainList (t :: l) →
    ∀ u ∈ l, t.end_time ≤ u.start_time := by
  intro l
  induction l with
  | nil =>
    intro t _ u hu
    simp at hu
  | cons v rest ih =>
    intro t h u hu
    obtain ⟨hall, hchain⟩ := h
    rw [List.chain'_cons] at hchain
    rcases List.mem_cons.mp hu with rfl | hu
    · exact hchain.1
    · have hv := ih v ⟨fun x hx => hall x (List.mem_cons_of_mem _ hx), hchain.2⟩ u hu
      have hvw := (hall v (by simp)).2
      have h1 := hchain.1
      omega

theorem wchain_pairwise : ∀ (l : List Task), WChainList l →
    l.Pairwise (fun a b => ¬ taskOverlap a b) := by
  intro l
  induction l with
  | nil => intro _; simp
  | cons t rest ih =>
    intro h
    refine List.Pairwise.cons ?_
      (ih ⟨fun x hx => h.1 x (List.mem_cons_of_mem _ hx), h.2.tail⟩)
    intro u hu
    exact wtask_not_overlap (h.1 t (by simp)) (h.1 u (List.mem_cons_of_mem _ hu))
      (wchain_head_le rest t h u hu)

theorem newWorker_inv {ts : List Task} {processed : List Int} {a : AllocState}
    {tid : Int} {t : Task}
    (hInv : AInv ts processed a.avail a.assignments a.workerCount a.tasks)
    (hlook : alookup a.tasks tid = some t)
    (htid : tid ∈ taskIds ts) (hnp : tid ∉ processed)
    (htw : t.start_time < t.end_time) :
    AInv ts (processed ++ [tid])
      (qinsert (t.end_time, a.workerCount + 1) a.avail)
      (dappend a.assignments (a.workerCount + 1) tid)
      (a.workerCount + 1)
      (aset a.tasks tid
        { t with assigned_worker := some (a.workerCount + 1)
                 actual_start := .infty }) := by
  have hcn := hInv.count_nonneg
  have hwfresh : (a.workerCount + 1) ∉ a.assignments.map Prod.fst := by
    intro hmem
    have := hInv.count_bound _ hmem
    omega
  have hassign_none : alookup a.assignments (a.workerCount + 1) = none :=
    alookup_eq_none hwfresh
  have hdapp : dappend a.assignments (a.workerCount + 1) tid =
      a.assignments ++ [(a.workerCount + 1, [tid])] := by
    unfold dappend
    rw [show getList a.assignments (a.workerCount + 1) = [] from by
      unfold getList; rw [hassign_none]; rfl]
    exact aset_keys_of_not_mem hwfresh _
  constructor
  · rw [aset_keys_of_mem (by rw [hInv.tasks_keys]; exact htid)]
    exact hInv.tasks_keys
  · intro i hi
    simp only [List.mem_append, List.mem_singleton] at hi
    push_neg at hi
    rw [alookup_aset_ne _ (fun he => hi.2 he.symm)]
    exact hInv.tasks_pristine i hi.1
  · intro i hi
    rcases List.mem_append.mp hi with hi | hi
    · obtain ⟨t', ht', h1, h2⟩ := hInv.tasks_assigned i hi
      have hne : tid ≠ i := fun he => hnp (he ▸ hi)
      exact ⟨t', by rw [alookup_aset_ne _ hne]; exact ht', h1, h2⟩
    · rcases List.mem_singleton.mp hi with rfl
      exact ⟨_, alookup_aset_self _ _ _, rfl, by simp⟩
  · omega
  · rw [hdapp, List.map_append]
    rw [List.nodup_append]
    refine ⟨hInv.assign_keys_nodup, by simp, ?_⟩
    intro k hk hk2
    simp only [List.map_cons, List.map_nil, List.mem_singleton] at hk2
    exact hwfresh (hk2 ▸ hk)
  · intro k hk
    rw [hdapp, List.map_append] at hk
    rcases List.mem_append.mp hk with hk | hk
    · have := hInv.count_bound _ hk
      omega
    · simp only [List.map_cons, List.map_nil, List.mem_singleton] at hk
      omega
  · rw [(qinsert_map_snd_perm _ _).nodup_iff]
    refine List.nodup_cons.mpr ⟨?_, hInv.avail_snd_nodup⟩
    intro hmem
    obtain ⟨p, hp, hsnd⟩ := List.mem_map.mp hmem
    obtain ⟨wl, hwl, _⟩ := hInv.avail_assign p hp
    have hpkey : p.2 ∈ a.assignments.map Prod.fst := by
      by_contra hnot
      rw [alookup_eq_none hnot] at hwl
      cases hwl
    have := hInv.count_bound _ hpkey
    omega
  · intro p hp
    rcases mem_qinsert.mp hp with rfl | hp
    · refine ⟨[tid], ?_, ?_⟩
      · rw [hdapp]
        show alookup (a.assignments ++ [(a.workerCount + 1, [tid])])
          (a.workerCount + 1) = some [tid]
        rw [alookup_append_right _ hwfresh]
        simp [alookup]
      · refine ⟨{ t with assigned_worker := some (a.workerCount + 1), actual_start := .infty }, ?_, rfl⟩
        have hfm : ([tid].filterMap (alookup (aset a.tasks tid { t with assigned_worker := some (a.workerCount + 1), actual_start := .infty }))) = [{ t with assigned_worker := some (a.workerCount + 1), actual_start := .infty }] := by
          simp [List.filterMap_cons, alookup_aset_self]
        rw [hfm]
        rfl
    · obtain ⟨wl, hwl, tl, htl, hend⟩ := hInv.avail_assign p hp
      have hpkey : p.2 ∈ a.assignments.map Prod.fst := by
        by_contra hnot
        rw [alookup_eq_none hnot] at hwl
        cases hwl
      have hpne : p.2 ≠ a.workerCount + 1 := by
        have := hInv.count_bound _ hpkey
        omega
      refine ⟨wl, ?_, tl, ?_, hend⟩
      · rw [hdapp, alookup_append_left _ hpkey]
        exact hwl
      · have hsub := (hInv.assign_chain (p.2, wl) (alookup_mem hwl)).1
        rw [List.filterMap_congr (fun i hi =>
          alookup_aset_ne _ (fun he => hnp (by rw [he]; exact hsub i hi)) _)]
        exact htl
  · intro q hq
    rw [hdapp] at hq
    rcases List.mem_append.mp hq with hq | hq
    · obtain ⟨hsub, hchain⟩ := hInv.assign_chain q hq
      refine ⟨fun i hi => List.mem_append.mpr (Or.inl (hsub i hi)), ?_⟩
      rw [List.filterMap_congr (fun i hi =>
        alookup_aset_ne _ (fun he => hnp (by rw [he]; exact hsub i hi)) _)]
      exact hchain
    · rcases List.mem_singleton.mp hq with rfl
      refine ⟨by simp, ?_⟩
      have hfm : ([tid].filterMap (alookup (aset a.tasks tid { t with assigned_worker := some (a.workerCount + 1), actual_start := .infty }))) = [{ t with assigned_worker := some (a.workerCount + 1), actual_start := .infty }] := by
        simp [List.filterMap_cons, alookup_aset_self]
      rw [hfm]
      refine ⟨?_, List.chain'_singleton _⟩
      intro u hu
      rcases List.mem_singleton.mp hu with rfl
      exact ⟨Or.inl rfl, htw⟩

theorem mem_aset {β : Type} : ∀ {l : List (Int × β)} {k : Int} {v : β}
    {q : Int × β}, q ∈ aset l k v → q = (k, v) ∨ q ∈ l := by
  intro l
  induction l with
  | nil =>
    intro k v q h
    simp [aset] at h
    exact Or.inl h
  | cons p rest ih =>
    intro k v q h
    by_cases hp : p.1 = k
    · rw [show aset (p :: rest) k v = (k, v) :: rest from by simp [aset, hp]] at h
      rcases List.mem_cons.mp h with rfl | h
      · exact Or.inl rfl
      · exact Or.inr (List.mem_cons_of_mem _ h)
    · rw [show aset (p :: rest) k v = p :: aset rest k v from by
        simp [aset, hp]] at h
      rcases List.mem_cons.mp h with rfl | h
      · exact Or.inr (by simp)
      · rcases ih h with h | h
        · exact Or.inl h
        · exact Or.inr (List.mem_cons_of_mem _ h)

theorem allocStep_nil {a : AllocState} {tid : Int} {t : Task}
    (h : alookup a.tasks tid = some t) (h2 : a.avail = []) :
    allocStep a tid = newWorker a t tid := by
  unfold allocStep
  rw [h, h2]

theorem allocStep_reuse {a : AllocState} {tid : Int} {t : Task} {e w : Int}
    {rest : List (Int × Int)}
    (h : alookup a.tasks tid = some t) (h2 : a.avail = (e, w) :: rest)
    (h3 : e ≤ t.start_time) :
    allocStep a tid =
      ⟨qinsert (t.end_time, w) rest, dappend a.assignments w tid, a.workerCount,
        aset a.tasks tid { t with assigned_worker := some w, actual_start := .fin (max t.start_time e) }⟩ := by
  unfold allocStep
  rw [h, h2]
  simp [h3]

theorem allocStep_nofit {a : AllocState} {tid : Int} {t : Task} {e w : Int}
    {rest : List (Int × Int)}
    (h : alookup a.tasks tid = some t) (h2 : a.avail = (e, w) :: rest)
    (h3 : ¬ e ≤ t.start_time) :
    allocStep a tid = newWorker a t tid := by
  unfold allocStep
  rw [h, h2]
  simp [h3]

theorem allocStep_inv {ts : List Task} {processed : List Int} {a : AllocState}
    {tid : Int} (hwf : WellFormed ts)
    (hInv : AInv ts processed a.avail a.assignments a.workerCount a.tasks)
    (htid : tid ∈ taskIds ts) (hnp : tid ∉ processed) :
    AInv ts (processed ++ [tid]) (allocStep a tid).avail
      (allocStep a tid).assignments (allocStep a tid).workerCount
      (allocStep a tid).tasks := by
  have hlook0 := hInv.tasks_pristine tid hnp
  have hsome : (alookup (ts.map (fun t => (t.id, t))) tid).isSome = true :=
    alookup_isSome_of_mem (by rw [tasksMap_keys]; exact htid)
  obtain ⟨t, ht⟩ := Option.isSome_iff_exists.mp hsome
  obtain ⟨htmem, _⟩ := alookup_tasksMap_inv ht
  have hlook : alookup a.tasks tid = some t := by rw [hlook0, ht]
  have htw : t.start_time < t.end_time := hwf.2.2.2 t htmem
  cases havail : a.avail with
  | nil =>
    rw [allocStep_nil hlook havail]
    exact newWorker_inv hInv hlook htid hnp htw
  | cons p rest =>
    obtain ⟨e, w⟩ := p
    by_cases hcond : e ≤ t.start_time
    · rw [allocStep_reuse hlook havail hcond]
      have hhead : ((e, w) : Int × Int) ∈ a.avail := by
        rw [havail]
        simp
      obtain ⟨wl, hwl, tl, htl, hend⟩ := hInv.avail_assign (e, w) hhead
      have hwkey : w ∈ a.assignments.map Prod.fst := by
        by_contra hnot
        rw [alookup_eq_none hnot] at hwl
        cases hwl
      have hwl_mem : (w, wl) ∈ a.assignments := alookup_mem hwl
      have hsubwl := (hInv.assign_chain (w, wl) hwl_mem).1
      have hchainwl := (hInv.assign_chain (w, wl) hwl_mem).2
      have hdapp : dappend a.assignments w tid =
          aset a.assignments w (wl ++ [tid]) := by
        unfold dappend getList
        rw [hwl]
        rfl
      have havailsnd : a.avail.map Prod.snd = w :: rest.map Prod.snd := by
        rw [havail]
        rfl
      have hwnotrest : w ∉ rest.map Prod.snd := by
        have := hInv.avail_snd_nodup
        rw [havailsnd] at this
        exact (List.nodup_cons.mp this).1
      have hmat_unch : ∀ (l : List Int), (∀ i ∈ l, i ∈ processed) →
          l.filterMap (alookup (aset a.tasks tid
            { t with assigned_worker := some w, actual_start := .fin (max t.start_time e) })) =
          l.filterMap (alookup a.tasks) := by
        intro l hl
        exact List.filterMap_congr (fun i hi =>
          alookup_aset_ne _ (fun he => hnp (by rw [he]; exact hl i hi)) _)
      constructor
      · rw [aset_keys_of_mem (by rw [hInv.tasks_keys]; exact htid)]
        exact hInv.tasks_keys
      · intro i hi
        simp only [List.mem_append, List.mem_singleton] at hi
        push_neg at hi
        rw [alookup_aset_ne _ (fun he => hi.2 he.symm)]
        exact hInv.tasks_pristine i hi.1
      · intro i hi
        rcases List.mem_append.mp hi with hi | hi
        · obtain ⟨t', ht', h1, h2⟩ := hInv.tasks_assigned i hi
          have hne : tid ≠ i := fun he => hnp (he ▸ hi)
          exact ⟨t', by rw [alookup_aset_ne _ hne]; exact ht', h1, h2⟩
        · rcases List.mem_singleton.mp hi with rfl
          exact ⟨_, alookup_aset_self _ _ _, rfl, by simp⟩
      · exact hInv.count_nonneg
      · rw [hdapp, aset_keys_of_mem hwkey]
        exact hInv.assign_keys_nodup
      · intro k hk
        rw [hdapp, aset_keys_of_mem hwkey] at hk
        exact hInv.count_bound k hk
      · rw [(qinsert_map_snd_perm _ _).nodup_iff]
        refine List.nodup_cons.mpr ⟨hwnotrest, ?_⟩
        have := hInv.avail_snd_nodup
        rw [havailsnd] at this
        exact (List.nodup_cons.mp this).2
      · intro p hp
        rcases mem_qinsert.mp hp with rfl | hp
        · refine ⟨wl ++ [tid], ?_, ?_⟩
          · rw [hdapp]
            show alookup (aset a.assignments w (wl ++ [tid])) w = some (wl ++ [tid])
            exact alookup_aset_self _ _ _
          · refine ⟨{ t with assigned_worker := some w, actual_start := .fin (max t.start_time e) }, ?_, rfl⟩
            rw [List.filterMap_append, hmat_unch wl hsubwl]
            have hone : ([tid].filterMap (alookup (aset a.tasks tid
                { t with assigned_worker := some w, actual_start := .fin (max t.start_time e) }))) =
                [{ t with assigned_worker := some w, actual_start := .fin (max t.start_time e) }] := by
              simp [List.filterMap_cons, alookup_aset_self]
            rw [hone]
            simp
        · have hpne : p.2 ≠ w := by
            intro he
            exact hwnotrest (he ▸ List.mem_map.mpr ⟨p, hp, rfl⟩)
          have hpavail : p ∈ a.avail := by
            rw [havail]
            exact List.mem_cons_of_mem _ hp
          obtain ⟨wl', hwl', tl', htl', hend'⟩ := hInv.avail_assign p hpavail
          have hsub' := (hInv.assign_chain (p.2, wl') (alookup_mem hwl')).1
          refine ⟨wl', ?_, tl', ?_, hend'⟩
          · rw [hdapp, alookup_aset_ne _ (fun he => hpne he.symm)]
            exact hwl'
          · rw [hmat_unch wl' hsub']
            exact htl'
      · intro q hq
        rw [hdapp] at hq
        rcases mem_aset hq with rfl | hq
        · refine ⟨?_, ?_⟩
          · intro i hi
            rcases List.mem_append.mp hi with hi | hi
            · exact List.mem_append.mpr (Or.inl (hsubwl i hi))
            · rcases List.mem_singleton.mp hi with rfl
              exact List.mem_append.mpr (Or.inr (by simp))
          · show WChainList ((wl ++ [tid]).filterMap _)
            rw [List.filterMap_append, hmat_unch wl hsubwl]
            have hone : ([tid].filterMap (alookup (aset a.tasks tid
                { t with assigned_worker := some w, actual_start := .fin (max t.start_time e) }))) =
                [{ t with assigned_worker := some w, actual_start := .fin (max t.start_time e) }] := by
              simp [List.filterMap_cons, alookup_aset_self]
            rw [hone]
            refine ⟨?_, ?_⟩
            · intro u hu
              rcases List.mem_append.mp hu with hu | hu
              · exact hchainwl.1 u hu
              · rcases List.mem_singleton.mp hu with rfl
                refine ⟨Or.inr ?_, htw⟩
                show StartVal.fin (max t.start_time e) = StartVal.fin t.start_time
                rw [max_eq_left hcond]
            · rw [List.chain'_append]
              refine ⟨hchainwl.2, List.chain'_singleton _, ?_⟩
              intro x hx y hy
              have hx' : x = tl := by
                rw [htl] at hx
                exact (Option.mem_some_iff.mp hx).symm
              have hy' : y = { t with assigned_worker := some w, actual_start := .fin (max t.start_time e) } := by
                have := by simpa using hy
                exact this.symm
              show x.end_time ≤ y.start_time
              rw [hx', hy']
              show tl.end_time ≤ t.start_time
              have hend' : tl.end_time = e := hend
              omega
        · obtain ⟨hsub, hchain⟩ := hInv.assign_chain q hq
          refine ⟨fun i hi => List.mem_append.mpr (Or.inl (hsub i hi)), ?_⟩
          rw [hmat_unch q.2 hsub]
          exact hchain
    · rw [allocStep_nofit hlook havail hcond]
      exact newWorker_inv hInv hlook htid hnp htw

theorem alloc_fold_inv {ts : List Task} (hwf : WellFormed ts) :
    ∀ (rest processed : List Int) (a : AllocState),
    (∀ i ∈ rest, i ∈ taskIds ts) → (∀ i ∈ rest, i ∉ processed) → rest.Nodup →
    AInv ts processed a.avail a.assignments a.workerCount a.tasks →
    AInv ts (processed ++ rest) (rest.foldl allocStep a).avail
      (rest.foldl allocStep a).assignments (rest.foldl allocStep a).workerCount
      (rest.foldl allocStep a).tasks := by
  intro rest
  induction rest with
  | nil =>
    intro processed a _ _ _ h
    simpa using h
  | cons tid rest' ih =>
    intro processed a hsub hdisj hnd h
    simp only [List.foldl_cons]
    have hstep := allocStep_inv hwf h (hsub tid (by simp)) (hdisj tid (by simp))
    have hrec := ih (processed ++ [tid]) (allocStep a tid)
      (fun i hi => hsub i (List.mem_cons_of_mem _ hi))
      (fun i hi hmem => by
        rcases List.mem_append.mp hmem with hm | hm
        · exact hdisj i (List.mem_cons_of_mem _ hi) hm
        · rcases List.mem_singleton.mp hm with rfl
          exact (List.nodup_cons.mp hnd).1 hi)
      (List.nodup_cons.mp hnd).2 hstep
    rw [show processed ++ tid :: rest' = (processed ++ [tid]) ++ rest' from by simp]
    exact hrec

/-- The allocation invariant holds at the end of a full run of
`find_minimum_workers` on well-formed acyclic input. -/
theorem alloc_run_inv (ts : List Task) (hwf : WellFormed ts) (hac : Acyclic ts) :
    AInv ts (get_topologically_sorted_tasks (addAll freshCState ts))
      ((get_topologically_sorted_tasks (addAll freshCState ts)).foldl allocStep
        ⟨[], [], 0, (addAll freshCState ts).tasks⟩).avail
      ((get_topologically_sorted_tasks (addAll freshCState ts)).foldl allocStep
        ⟨[], [], 0, (addAll freshCState ts).tasks⟩).assignments
      ((get_topologically_sorted_tasks (addAll freshCState ts)).foldl allocStep
        ⟨[], [], 0, (addAll freshCState ts).tasks⟩).workerCount
      ((get_topologically_sorted_tasks (addAll freshCState ts)).foldl allocStep
        ⟨[], [], 0, (addAll freshCState ts).tasks⟩).tasks := by
  obtain ⟨hTP, hnodup, hsub, hcover⟩ := topo_props ts hwf hac
  have hInit : AInv ts [] ([] : List (Int × Int)) ([] : List (Int × List Int)) 0
      (addAll freshCState ts).tasks := by
    constructor
    · rw [addAll_tasks_of_fresh hwf.1, tasksMap_keys]
    · intro i _
      rw [addAll_tasks_of_fresh hwf.1]
    · intro i hi
      simp at hi
    · exact le_refl 0
    · simp
    · intro k hk
      simp at hk
    · simp
    · intro p hp
      simp at hp
    · intro q hq
      simp at hq
  have hfold := alloc_fold_inv hwf
    (get_topologically_sorted_tasks (addAll freshCState ts)) []
    ⟨[], [], 0, (addAll freshCState ts).tasks⟩ hsub (by intro i _; simp)
    hnodup hInit
  simpa using hfold

/-- Re-registering the same tasks on the instance a finished
`find_minimum_workers` call leaves behind restores the task store a fresh
registration would produce: the allocator only overwrote values under the
existing keys, and `add_task` overwrites every one of them again. -/
theorem second_run_tasks (ts : List Task) (hwf : WellFormed ts)
    (hac : Acyclic ts) :
    (addAll (find_minimum_workers freshCState ts).2 ts).tasks =
      (addAll freshCState ts).tasks := by
  have hinv := alloc_run_inv ts hwf hac
  have hkeys : ((find_minimum_workers freshCState ts).2.tasks).map Prod.fst =
      taskIds ts := hinv.tasks_keys
  rw [addAll_tasks_fold,
    foldl_aset_overwrite hwf.1 ((find_minimum_workers freshCState ts).2.tasks)
      hkeys,
    addAll_tasks_of_fresh hwf.1]

/-- A second `find_minimum_workers` call on the same instance computes the
same topological order as the first, although it runs on a dependency
graph with every adjacency list and every in-degree doubled by the
re-registration. -/
theorem sorted_second_run (ts : List Task) (hwf : WellFormed ts)
    (hac : Acyclic ts) :
    get_topologically_sorted_tasks
        (addAll (find_minimum_workers freshCState ts).2 ts) =
      get_topologically_sorted_tasks (addAll freshCState ts) := by
  have hnd := hwf.1
  have hdnd := hwf.2.1
  have hT1 : (addAll freshCState ts).tasks = ts.map (fun t => (t.id, t)) :=
    addAll_tasks_of_fresh hnd
  have hT2 : (addAll (find_minimum_workers freshCState ts).2 ts).tasks =
      ts.map (fun t => (t.id, t)) := by
    rw [second_run_tasks ts hwf hac]
    exact hT1
  have hkey : cKey (addAll (find_minimum_workers freshCState ts).2 ts) =
      cKey (addAll freshCState ts) := by
    funext i
    unfold cKey
    rw [hT2, hT1]
  have hrev1 : ∀ t ∈ ts,
      getList (addAll freshCState ts).revDeps t.id = t.dependencies :=
    fun t ht => revDeps_getList_fresh hnd ht
  have hrev2 : ∀ t ∈ ts,
      getList (addAll (find_minimum_workers freshCState ts).2 ts).revDeps
          t.id =
        t.dependencies ++ t.dependencies := by
    intro t ht
    rw [revDeps_getList_addAll hnd ht,
      show (find_minimum_workers freshCState ts).2.revDeps =
        (addAll freshCState ts).revDeps from rfl,
      hrev1 t ht]
  have hiff : ∀ i ∈ taskIds ts,
      (((getList (addAll (find_minimum_workers freshCState ts).2 ts).revDeps
          i).length : Int) = 0 ↔
       ((getList (addAll freshCState ts).revDeps i).length : Int) = 0) := by
    intro i hi
    obtain ⟨t, ht, rfl⟩ := List.mem_map.mp hi
    rw [hrev2 t ht, hrev1 t ht]
    simp only [List.length_append]
    omega
  have hseed : seedQueue ((taskIds ts).map (fun i =>
      (i, ((getList (addAll (find_minimum_workers freshCState ts).2
        ts).revDeps i).length : Int))))
      (cKey (addAll freshCState ts)) =
    seedQueue ((taskIds ts).map (fun i =>
      (i, ((getList (addAll freshCState ts).revDeps i).length : Int))))
      (cKey (addAll freshCState ts)) :=
    seedQueue_congr _ _ _ _ hiff
  have hG₁ : ∀ j, getList (addAll freshCState ts).depGraph j =
      (taskIds ts).filter (fun i => decide (j ∈ depsOfTask ts i)) :=
    depGraph_getList_fresh ts hnd hdnd
  have hG₂ : ∀ j,
      getList (addAll (find_minimum_workers freshCState ts).2 ts).depGraph
          j =
        getList (addAll freshCState ts).depGraph j ++
          getList (addAll freshCState ts).depGraph j := by
    intro j
    rw [addAll_depGraph_fold,
      show (find_minimum_workers freshCState ts).2.depGraph =
        (addAll freshCState ts).depGraph from rfl,
      graph_fold ts _ j hdnd, filter_map_exchange ts hnd j, ← hG₁ j]
  have hdblinit : ∀ i ∈ taskIds ts,
      alookup ((taskIds ts).map (fun i =>
        (i, ((getList (addAll (find_minimum_workers freshCState ts).2
          ts).revDeps i).length : Int)))) i =
      some (2 * (remCount (depsOfTask ts) [] i : Int)) := by
    intro i hi
    rw [alookup_map_graph, if_pos hi, remCount_nil]
    obtain ⟨t, ht, rfl⟩ := List.mem_map.mp hi
    rw [hrev2 t ht, depsOfTask_eq hnd ht]
    congr 1
    rw [List.length_append]
    push_cast
    ring
  have hKI0 := kinv_init ts hwf
  have hmain := kahn_doubled (taskIds ts) (depsOfTask ts)
    (cKey (addAll freshCState ts)) hnd (depsOfTask_nodup hwf)
    (addAll freshCState ts).depGraph
    (addAll (find_minimum_workers freshCState ts).2 ts).depGraph hG₁ hG₂
    (kahnFuel (seedQueue ((taskIds ts).map (fun i =>
        (i, ((getList (addAll freshCState ts).revDeps i).length : Int))))
        (cKey (addAll freshCState ts)))
      ((taskIds ts).map (fun i =>
        (i, ((getList (addAll freshCState ts).revDeps i).length : Int)))))
    (kahnFuel (seedQueue ((taskIds ts).map (fun i =>
        (i, ((getList (addAll freshCState ts).revDeps i).length : Int))))
        (cKey (addAll freshCState ts)))
      ((taskIds ts).map (fun i =>
        (i, ((getList (addAll (find_minimum_workers freshCState ts).2
          ts).revDeps i).length : Int)))))
    [] _ _ _ hKI0 hdblinit (le_refl _) (le_refl _)
  rw [gts_unfold (addAll (find_minimum_workers freshCState ts).2 ts) ts hnd
      hT2,
    gts_unfold (addAll freshCState ts) ts hnd hT1, hkey, hseed]
  exact hmain

/-! ### Claims -/

/-- **C1** (code_bug evaluation).  The claim says every schedule is feasible:
`actualStart ≥ earliestStart` (§4.3) and, on every dependency edge,
`actualFinish(dependency) ≤ actualStart(dependent)`.  On `feasInput` the
allocator — which compares worker availability against the raw
`start_time`, never against the critical-path value — starts task 3 at 2,
although its spec earliest start is 10 (task 1, its dependency, only
finishes at 10, and its recorded actual start is the `inf` sentinel). -/
theorem c1_allocator_ignores_dependency_lower_bounds :
    (alookup (find_minimum_workers freshCState feasInput).2.tasks 3).map
        Task.actual_start = some (.fin 2) ∧
    (alookup (find_minimum_workers freshCState feasInput).2.tasks 1).map
        Task.actual_start = some .infty ∧
    (alookup (specEarliestTimes feasInput
        (get_topologically_sorted_tasks (addAll freshCState feasInput))) 3).map
        Prod.fst = some 10 ∧
    (alookup (specEarliestTimes feasInput
        (get_topologically_sorted_tasks (addAll freshCState feasInput))) 1).map
        Prod.snd = some 10 ∧
    ¬ ((10 : Int) ≤ 2) := by
  decide

/-- **C2** (counterexample).  The critical-path pass iterates `self.tasks`
in registration order, not topological order: with task 2 registered before
its dependency task 1, the `if dep_id in critical_info` guard silently skips
the dependency, so task 2 gets `earliest_start = 0` even though the claimed
formula `max(windowStart, max(earliestFinish of deps)) = max 0 3 = 3`. -/
theorem c2_insertion_order_breaks_critical_path :
    (calculate_critical_path (addAll freshCState cpInput)).map Prod.fst = [2, 1] ∧
    (alookup (calculate_critical_path (addAll freshCState cpInput)) 2).map
        CritInfo.earliest_start = some 0 ∧
    (alookup (calculate_critical_path (addAll freshCState cpInput)) 1).map
        CritInfo.earliest_finish = some 3 ∧
    (0 : Int) ≠ max 0 3 := by
  decide

/-- **C2** (amended).  The estimator iterates tasks in registration
(insertion) order and treats a dependency's `earliest_finish` as a lower
bound only if it is already computed; when every task's dependencies precede
it in the registration order, the computed values do satisfy
`earliestStart = max(windowStart, max(earliestFinish of each dependency))`
(stated as: it is an upper bound on the window start and on every
dependency's finish, and is attained by one of them) and
`earliestFinish = earliestStart + duration`. -/
theorem c2_critical_path_correct_when_registration_topological
    (ts : List Task) (hnd : (taskIds ts).Nodup) (hpre : depsPrecede ts) :
    ∀ t ∈ ts, ∃ i,
      alookup (calculate_critical_path (addAll freshCState ts)) t.id = some i ∧
      i.earliest_finish = i.earliest_start + t.duration ∧
      t.start_time ≤ i.earliest_start ∧
      (∀ d ∈ t.dependencies, ∃ j,
        alookup (calculate_critical_path (addAll freshCState ts)) d = some j ∧
        j.earliest_finish ≤ i.earliest_start) ∧
      (i.earliest_start = t.start_time ∨ ∃ d ∈ t.dependencies, ∃ j,
        alookup (calculate_critical_path (addAll freshCState ts)) d = some j ∧
        i.earliest_start = j.earliest_finish) := by
  have hzero : CPInv [] [] := ⟨rfl, by simp⟩
  have hpre' : ∀ k : Fin ts.length, ∀ d ∈ (ts.get k).dependencies,
      d ∈ taskIds ([] ++ ts.take k.1) := by
    intro k d hd
    simpa using hpre k d hd
  have hfold := cp_fold_inv ts [] [] (by simpa using hnd) hpre' hzero
  simp only [List.nil_append] at hfold
  have hcp : calculate_critical_path (addAll freshCState ts) =
      ((ts.map (fun t => (t.id, t))).foldl cpStep []).map
        (fun p => (p.1, slackUpd p.2)) := by
    unfold calculate_critical_path
    rw [addAll_tasks_of_fresh hnd]
  intro t ht
  obtain ⟨i, hi, h1, h2, h3, h4⟩ := hfold.2 t ht
  refine ⟨slackUpd i, ?_, h1, h2, ?_, ?_⟩
  · rw [hcp, alookup_map_values, hi]
    rfl
  · intro d hd
    obtain ⟨j, hj, hle⟩ := h3 d hd
    exact ⟨slackUpd j, by rw [hcp, alookup_map_values, hj]; rfl, hle⟩
  · rcases h4 with h | ⟨d, hd, j, hj, hval⟩
    · exact Or.inl h
    · exact Or.inr ⟨d, hd, slackUpd j,
        by rw [hcp, alookup_map_values, hj]; rfl, hval⟩

/-- **C2** (witness for the amended claim, at the two-task chain registered
in dependency order). -/
theorem c2_critical_path_correct_when_registration_topological_witness :
    ∃ i, alookup (calculate_critical_path (addAll freshCState cpGood)) cpGoodB.id
        = some i ∧
      i.earliest_finish = i.earliest_start + cpGoodB.duration ∧
      cpGoodB.start_time ≤ i.earliest_start ∧
      (∀ d ∈ cpGoodB.dependencies, ∃ j,
        alookup (calculate_critical_path (addAll freshCState cpGood)) d = some j ∧
        j.earliest_finish ≤ i.earliest_start) ∧
      (i.earliest_start = cpGoodB.start_time ∨ ∃ d ∈ cpGoodB.dependencies, ∃ j,
        alookup (calculate_critical_path (addAll freshCState cpGood)) d = some j ∧
        i.earliest_start = j.earliest_finish) :=
  c2_critical_path_correct_when_registration_topological cpGood (by decide)
    (by decide) cpGoodB (by decide)

/-- **C3** (counterexample).  On the cyclic input `{1 deps [2], 2 deps [1]}`
the advanced scheduler does not fail at all: `_get_topologically_sorted_tasks`
has no length check, so `find_minimum_workers` silently returns a partial
(here empty) schedule of 0 workers. -/
theorem c3_complex_returns_partial_schedule_on_cycle :
    (find_minimum_workers freshCState cycInput).1 = (0, []) := by
  decide

/-- **C3** (amended).  On the cyclic input the emitted topological order is
empty; the professional implementation detects this via the length check and
raises `ValueError("Circular dependencies detected in task graph")` — a
message that names no task ids — and `solve_task_scheduling_problem` turns it
into `None`, while the advanced scheduler performs no check (see the
counterexample). -/
theorem c3_cycle_error_reports_no_ids :
    get_topologically_sorted_tasks (addAll freshCState cycInput) = [] ∧
    solveE pCycInput = .error "Circular dependencies detected in task graph" ∧
    solve_task_scheduling_problem pCycInput = none := by
  decide

/-- **C4** (counterexample).  A duplicate-id input does not fail with
`MalformedInput`: with no dependencies it is scheduled successfully (two
workers), because `validate_task_input` never checks id uniqueness. -/
theorem c4_duplicate_ids_schedule_successfully :
    (solve_task_scheduling_problem pDupNoDeps).map PResult.min_workers = some 2 := by
  decide

/-- **C4** (amended).  Validation eagerly rejects only per-task field
problems — non-negative `id`/`start` and `end > start` — plus the empty
list; duplicate ids and dependencies on unknown ids pass validation, and
when they reach the main algorithm they surface as the circular-dependency
error instead. -/
theorem c4_validation_checks_only_field_values :
    (∀ ts t, validate_task_input ts = .ok () → t ∈ ts →
      0 ≤ t.id ∧ 0 ≤ t.start ∧ t.start < t.end_) ∧
    validate_task_input [] = .error "Task list cannot be empty" ∧
    validate_task_input [{ id := 1, start := 3, end_ := 3, dependencies := [] }] =
      .error "Task 0: end must be greater than start" ∧
    solveE pDupWithDeps = .error "Circular dependencies detected in task graph" ∧
    solveE pDangling = .error "Circular dependencies detected in task graph" := by
  refine ⟨?_, by decide, by decide, by decide, by decide⟩
  intro ts t h ht
  unfold validate_task_input at h
  split at h
  · exact absurd h (by simp)
  · exact validateEach_ok h t ht

/-- **C4** (witness for the amended claim's universal part). -/
theorem c4_validation_checks_only_field_values_witness :
    0 ≤ pSingle.id ∧ 0 ≤ pSingle.start ∧ pSingle.start < pSingle.end_ :=
  c4_validation_checks_only_field_values.1 [pSingle] pSingle (by decide)
    (by decide)

/-- **C5** (code_bug evaluation).  For the single-task input the claim (and
the spec's scenario 1) says worker 1 runs task 1 at `actualStart = 0`.  The
advanced scheduler does return 1 worker with task 1 on it, but records
`actual_start = inf`: with no existing worker, `earliest_available_time`
keeps its `float('inf')` initial value and flows through
`max(start_time, earliest_available_time)`.  The professional implementation
returns the single-task edge-case dict, which records no actual start at
all. -/
theorem c5_single_task_actual_start_is_infinite :
    (find_minimum_workers freshCState [singleTask]).1 =
      (1, [(1, [{ singleTask with assigned_worker := some 1
                                  actual_start := .infty }])]) ∧
    StartVal.infty ≠ StartVal.fin 0 ∧
    solveE [pSingle] =
      .ok { min_workers := 1, schedule := [(1, [pSingle])], total_time := 3 } := by
  decide

/-- **C6** (confirmed).  For well-formed acyclic input the Dependency
Resolver's output — Kahn's algorithm over the priority queue keyed by
`(start_time, id)` — is a valid topological order of the dependency DAG
covering all tasks: a duplicate-free enumeration of exactly the task ids in
which every task appears after all of its dependencies. -/
theorem c6_topological_order (ts : List Task) (hwf : WellFormed ts)
    (hac : Acyclic ts) :
    IsTopoOrderOf ts (get_topologically_sorted_tasks (addAll freshCState ts)) := by
  obtain ⟨hTP, hnodup, hsub, hcover⟩ := topo_props ts hwf hac
  refine ⟨hnodup, hsub, hcover, ?_⟩
  intro k t ht htid d hd
  exact hTP k d (by rw [← htid, depsOfTask_eq hwf.1 ht]; exact hd)

/-- **C6** (witness): the two-task chain is well-formed and acyclic, and the
resolver's output is a topological order for it. -/
theorem c6_topological_order_witness :
    IsTopoOrderOf cpGood
      (get_topologically_sorted_tasks (addAll freshCState cpGood)) :=
  c6_topological_order cpGood (by decide) ⟨[1, 2], by decide⟩

/-- **C7** (counterexample).  The allocators write scheduling metadata into
the caller's task objects: after a run, the stored record for task 1 — the
caller's object — differs from the input (`assigned_worker`/`actual_start`
set in the advanced scheduler, the `assigned_worker` key in the professional
one). -/
theorem c7_allocator_mutates_caller_tasks :
    alookup (find_minimum_workers freshCState [singleTask]).2.tasks 1 =
      some { singleTask with assigned_worker := some 1, actual_start := .infty } ∧
    ({ singleTask with assigned_worker := some 1
                       actual_start := StartVal.infty } ≠ singleTask) ∧
    (schedule_tasks_optimally pChain).toOption.map (fun x => alookup x.2 1) =
      some (some { id := 1, start := 0, end_ := 3, dependencies := []
                   assigned_worker := some 1 }) ∧
    pChain.head?.map PTask.assigned_worker = some none := by
  decide

/-- **C7** (amended).  The advanced allocator writes scheduling metadata
into the caller's task objects themselves: after a run on well-formed
acyclic input, every task that was scheduled (every id in the topological
order) has `assigned_worker` set and `actual_start` no longer unset in the
instance's task store — the caller's objects, since `add_task` stores and
the allocator mutates the very `Task` objects passed in. -/
theorem c7_every_scheduled_task_is_mutated (ts : List Task)
    (hwf : WellFormed ts) (hac : Acyclic ts) :
    ∀ tid ∈ get_topologically_sorted_tasks (addAll freshCState ts),
      ∃ t', alookup (find_minimum_workers freshCState ts).2.tasks tid = some t' ∧
        t'.assigned_worker.isSome = true ∧ t'.actual_start ≠ .unset := by
  have hinv := alloc_run_inv ts hwf hac
  exact hinv.tasks_assigned

/-- **C7** (witness for the amended claim). -/
theorem c7_every_scheduled_task_is_mutated_witness :
    ∃ t', alookup (find_minimum_workers freshCState cpGood).2.tasks 1 = some t' ∧
      t'.assigned_worker.isSome = true ∧ t'.actual_start ≠ .unset :=
  c7_every_scheduled_task_is_mutated cpGood (by decide) ⟨[1, 2], by decide⟩ 1
    (by decide)

/-- **C8** (confirmed).  In every schedule the advanced scheduler produces
for well-formed acyclic input, no worker is double-booked: within each
worker's task list, no two tasks have overlapping half-open
`[actualStart, actualStart + duration)` intervals.  (A task placed on a
fresh worker carries the `inf` sentinel, whose interval is empty; a reused
worker only receives tasks whose windows start at or after its previous
task's window end.) -/
theorem c8_no_double_booking (ts : List Task) (hwf : WellFormed ts)
    (hac : Acyclic ts) :
    ∀ p ∈ (find_minimum_workers freshCState ts).1.2,
      p.2.Pairwise (fun a b => ¬ taskOverlap a b) := by
  have hinv := alloc_run_inv ts hwf hac
  intro p hp
  have hp' : p ∈ materialize
      ((get_topologically_sorted_tasks (addAll freshCState ts)).foldl allocStep
        ⟨[], [], 0, (addAll freshCState ts).tasks⟩).tasks
      ((get_topologically_sorted_tasks (addAll freshCState ts)).foldl allocStep
        ⟨[], [], 0, (addAll freshCState ts).tasks⟩).assignments := hp
  unfold materialize at hp'
  obtain ⟨q, hq, rfl⟩ := List.mem_map.mp hp'
  exact wchain_pairwise _ (hinv.assign_chain q hq).2

/-- **C8** (witness, at the two-task chain: worker 1's singleton list is
overlap-free). -/
theorem c8_no_double_booking_witness :
    ((1 : Int), [{ cpGoodA with assigned_worker := some 1, actual_start := StartVal.infty }]).2.Pairwise
      (fun a b => ¬ taskOverlap a b) :=
  c8_no_double_booking cpGood (by decide) ⟨[1, 2], by decide⟩
    (1, [{ cpGoodA with assigned_worker := some 1, actual_start := StartVal.infty }])
    (by decide)

/-- **C9** (confirmed).  Scheduling is deterministic: repeated invocations
on the same fixed task set produce the same `minWorkers` and the same
per-task worker assignment — literally equal, not merely up to worker-id
renumbering.  The professional implementation is stateless, so this is
immediate for it; the advanced scheduler is the non-trivial case, because
`add_task` accumulates state across calls: a second `find_minimum_workers`
on the same instance runs with every adjacency list of `task_graph` and
every `reverse_dependencies` list doubled (and the first call's in-place
task mutations still in the store, though those touch only
`assigned_worker`/`actual_start`, which the algorithm never reads).  The
doubled in-degrees reach zero at exactly the same pops as the original
ones, so Kahn's loop emits the same order, and the allocator — a function
of that order and of the re-registered task store — returns the identical
`(min_workers, worker_assignments)` pair. -/
theorem c9_repeated_invocation_deterministic (ts : List Task)
    (hwf : WellFormed ts) (hac : Acyclic ts) :
    (find_minimum_workers (find_minimum_workers freshCState ts).2 ts).1 =
      (find_minimum_workers freshCState ts).1 := by
  have hsorted := sorted_second_run ts hwf hac
  have hT := second_run_tasks ts hwf hac
  have halloc : allocate_resources_optimally
      (addAll (find_minimum_workers freshCState ts).2 ts)
      (get_topologically_sorted_tasks
        (addAll (find_minimum_workers freshCState ts).2 ts)) =
    allocate_resources_optimally (addAll freshCState ts)
      (get_topologically_sorted_tasks (addAll freshCState ts)) := by
    unfold allocate_resources_optimally
    rw [hsorted, hT]
  have e2 : (find_minimum_workers (find_minimum_workers freshCState ts).2
      ts).1 =
    ((allocate_resources_optimally
        (addAll (find_minimum_workers freshCState ts).2 ts)
        (get_topologically_sorted_tasks
          (addAll (find_minimum_workers freshCState ts).2 ts))).workerCount,
     materialize
       (allocate_resources_optimally
         (addAll (find_minimum_workers freshCState ts).2 ts)
         (get_topologically_sorted_tasks
           (addAll (find_minimum_workers freshCState ts).2 ts))).tasks
       (allocate_resources_optimally
         (addAll (find_minimum_workers freshCState ts).2 ts)
         (get_topologically_sorted_tasks
           (addAll (find_minimum_workers freshCState ts).2
             ts))).assignments) := rfl
  have e1 : (find_minimum_workers freshCState ts).1 =
    ((allocate_resources_optimally (addAll freshCState ts)
        (get_topologically_sorted_tasks (addAll freshCState ts))).workerCount,
     materialize
       (allocate_resources_optimally (addAll freshCState ts)
         (get_topologically_sorted_tasks (addAll freshCState ts))).tasks
       (allocate_resources_optimally (addAll freshCState ts)
         (get_topologically_sorted_tasks
           (addAll freshCState ts))).assignments) := rfl
  rw [e2, e1, halloc]

/-- **C9** (witness): on the two-task chain, the second invocation on the
used instance returns the same `(min_workers, schedule)` pair as the
first. -/
theorem c9_repeated_invocation_deterministic_witness :
    (find_minimum_workers (find_minimum_workers freshCState cpGood).2
        cpGood).1 =
      (find_minimum_workers freshCState cpGood).1 :=
  c9_repeated_invocation_deterministic cpGood (by decide) ⟨[1, 2], by decide⟩

/-- **C10** (confirmed).  On the empty collection the two implementations
diverge exactly as claimed: `find_minimum_workers` returns 0 workers and an
empty assignment map without error, while `solve_task_scheduling_problem`
rejects the empty list during validation and returns `None`. -/
theorem c10_empty_input_divergence :
    (find_minimum_workers freshCState []).1 = (0, []) ∧
    solve_task_scheduling_problem [] = none ∧
    solveE [] = .error "Task list cannot be empty" := by
  decide

end Sched
